import Mathlib

/-!
# GoBorderless: window catalog, monitor topology and dialog reconciliation

A shallow embedding of `gui_appsetting.go` and `winapi.go`.

* Go `int32` values are integers in `[-2^31, 2^31)`; arithmetic wraps (`wrapInt32`).
* Go `int` values are integers in `[-2^63, 2^63)` (64-bit targets); arithmetic wraps
  (`wrapInt64`).
* Go strings are byte sequences (`GoString`).
* Operating-system queries (`GetWindowLong`, `EnumDisplayMonitors`, `GetMonitorInfo`,
  `EnumDisplaySettingsW`) are inputs of the functions that perform them.
* The standard-library calls are modelled by what they compute: `strings.Compare`,
  `slices.Index`, `slices.IndexFunc` directly, `strings.ToLower` as an arbitrary function, and
  `slices.SortFunc` by its algorithm (pattern-defeating quicksort), which is proved to return
  a sorted permutation (`slicesSortFunc_contract`).
-/

namespace GoBorderless

/-! ## Machine integers -/

/-- Two's-complement wrap of an integer into the `int32` range. -/
def wrapInt32 (x : Int) : Int := (x + 2147483648) % 4294967296 - 2147483648

/-- Two's-complement wrap of an integer into the 64-bit `int` range. -/
def wrapInt64 (x : Int) : Int :=
  (x + 9223372036854775808) % 18446744073709551616 - 9223372036854775808

/-- Smallest value of the 64-bit Go `int`. -/
def minInt : Int := -9223372036854775808

/-- Largest value of the 64-bit Go `int`. -/
def maxInt : Int := 9223372036854775807

/-- The value is representable as a Go `int32`. -/
def IsInt32 (x : Int) : Prop := -2147483648 ≤ x ∧ x < 2147483648

/-- The value is representable as a 64-bit Go `int`. -/
def IsInt (x : Int) : Prop := minInt ≤ x ∧ x ≤ maxInt

/-- The 32-bit pattern of an `int32` value. -/
def bits32 (x : Int) : Nat := (x % 4294967296).toNat

/-- Go `a & b` on `int32` operands. -/
def and32 (a b : Int) : Int := wrapInt32 ((bits32 a &&& bits32 b : Nat) : Int)

/-- Go `a - b` on `int32` operands. -/
def sub32 (a b : Int) : Int := wrapInt32 (a - b)

/-- Go `a / b` on `int32` operands: truncating division, `none` for the run-time panic on a
zero divisor. -/
def div32 (a b : Int) : Option Int :=
  if b = 0 then none else some (wrapInt32 (Int.tdiv a b))

/-- Go `a - b` on `int` operands. -/
def subInt (a b : Int) : Int := wrapInt64 (a - b)

/-- Go `a + b` on `int` operands. -/
def addInt (a b : Int) : Int := wrapInt64 (a + b)

/-! ## Strings -/

/-- A Go string: a sequence of bytes. -/
abbrev GoString := List Nat

/-- The bytes of an ASCII literal. -/
def ascii (s : String) : GoString := s.toList.map Char.toNat

/-- Go `strings.Compare`: byte-wise lexicographic three-way comparison. -/
def stringsCompare : GoString → GoString → Int
  | [], [] => 0
  | [], _ :: _ => -1
  | _ :: _, [] => 1
  | x :: xs, y :: ys =>
    if x < y then -1 else if y < x then 1 else stringsCompare xs ys

/-- Go `strings.ToLower` restricted to ASCII input: `A`..`Z` map to `a`..`z`, every other
byte is kept. -/
def asciiToLower (s : GoString) : GoString :=
  s.map (fun c => if 65 ≤ c ∧ c ≤ 90 then c + 32 else c)

/-! ## Data model -/

/-- Modelled from the spec: the `Window` type declaration is missing from the sources; the
fields are the ones of the spec's data model that the sources read (`hwnd`, `title`,
`exePath`) plus the owner process id. Go `==` on windows compares every field. -/
structure Window where
  hwnd : Nat
  title : GoString
  exePath : GoString
  pid : Nat
deriving DecidableEq, Repr, Inhabited

/-- Modelled from the spec: `Window.String()` is missing from the sources; the display string
of a window is its title. -/
def Window.String (w : Window) : GoString := w.title

/-- The `Monitor` struct of `winapi.go`. `number` is a Go `int`, the geometry fields are
`int32`. -/
structure Monitor where
  number : Int
  isPrimary : Bool
  width : Int
  height : Int
  left : Int
  top : Int
deriving DecidableEq, Repr

/-- Modelled from the spec: the `AppSetting` type declaration is missing from the sources;
only the fields the sources read or write are kept. -/
structure AppSetting where
  WindowName : GoString
  ExePath : GoString
  Monitor : Int
  OffsetX : Int
  OffsetY : Int
  Width : Int
  Height : Int
deriving DecidableEq, Repr

/-- Modelled from the spec: the `Settings` type declaration is missing from the sources;
`Defaults` carries the fallback values for new profiles. -/
structure Settings where
  Defaults : AppSetting
deriving DecidableEq, Repr

/-! ## Window classification (`gui_appsetting.go`) -/

/-- Win32 `WS_CAPTION`. -/
def WS_CAPTION : Int := 0x00C00000

/-- Win32 `WS_BORDER`. -/
def WS_BORDER : Int := 0x00800000

/-- Win32 `WS_THICKFRAME`. -/
def WS_THICKFRAME : Int := 0x00040000

/-- The function `isValidWindowForSelection`; `getWindowStyle` is the OS query
`GetWindowLong(hwnd, GWL_STYLE)`. -/
def isValidWindowForSelection (getWindowStyle : Nat → Int) (window : Window) : Bool :=
  let style := getWindowStyle window.hwnd
  decide (and32 style WS_CAPTION > 0) &&
    (decide (and32 style WS_BORDER > 0) || decide (and32 style WS_THICKFRAME > 0))

/-- A style has a flag when all bits of the flag are set in it. -/
def hasFlag (s flag : Int) : Prop := and32 s flag = flag

/-- A style has at least one bit of the flag set. -/
def hasSomeBit (s flag : Int) : Prop := and32 s flag ≠ 0

instance (s flag : Int) : Decidable (hasFlag s flag) := by
  unfold hasFlag
  infer_instance

instance (s flag : Int) : Decidable (hasSomeBit s flag) := by
  unfold hasSomeBit
  infer_instance

/-! ## Default monitor and size presets (`gui_appsetting.go`) -/

/-- Loop of Go `slices.IndexFunc` from position `i`. -/
def indexFuncFrom {α : Type} (f : α → Bool) : Int → List α → Int
  | _, [] => -1
  | i, x :: xs => if f x then i else indexFuncFrom f (i + 1) xs

/-- Go `slices.IndexFunc`: the first index whose element satisfies `f`, or `-1`. -/
def slicesIndexFunc {α : Type} (s : List α) (f : α → Bool) : Int := indexFuncFrom f 0 s

/-- Go `slices.Index`: the first index of `v` in `s`, or `-1`. -/
def slicesIndex {α : Type} [DecidableEq α] (s : List α) (v : α) : Int :=
  indexFuncFrom (fun x => decide (x = v)) 0 s

/-- The function `getDefaultMonitorIndex`; `monitors` is the package-level monitor list. -/
def getDefaultMonitorIndex (monitors : List Monitor) (settings : Settings)
    (appSetting : AppSetting) (isNew : Bool) : Int :=
  if !isNew then
    subInt appSetting.Monitor 1
  else
    let monitorIdx := subInt settings.Defaults.Monitor 1
    if monitorIdx < 0 then
      slicesIndexFunc monitors (fun m => m.isPrimary)
    else
      monitorIdx

/-- Go slice indexing `monitors[idx]`: `none` stands for the out-of-range panic. -/
def sliceAt {α : Type} (s : List α) (idx : Int) : Option α :=
  if 0 ≤ idx ∧ idx < s.length then s[idx.toNat]? else none

/-- The lookup `monitors[getDefaultMonitorIndex(settings, appSetting, isNew)]` of
`makeAppSettingWindow`. -/
def selectedMonitor (monitors : List Monitor) (settings : Settings)
    (appSetting : AppSetting) (isNew : Bool) : Option Monitor :=
  sliceAt monitors (getDefaultMonitorIndex monitors settings appSetting isNew)

/-- The four numbers a preset button writes (as decimal text) into the width, height,
x-offset and y-offset entries when tapped. -/
structure SizePreset where
  widthText : Int
  heightText : Int
  xOffsetText : Int
  yOffsetText : Int
deriving DecidableEq, Repr

/-- The function `createSizeButton`: the values its tap handler writes; `none` is the
division panic. -/
def createSizeButton (monitor : Monitor) (xDivider xOffset : Int) : Option SizePreset :=
  match div32 monitor.width xDivider with
  | none => none
  | some monitorWidth =>
    let offsetWidth : Int := if xOffset = 1 then monitorWidth else 0
    some
      { widthText := monitorWidth
        heightText := monitor.height
        xOffsetText := offsetWidth
        yOffsetText := 0 }

/-- The preset `halfLeftBtn` of `makeAppSettingWindow`. -/
def halfLeftBtn (m : Monitor) : Option SizePreset := createSizeButton m 2 0

/-- The preset `halfRightBtn` of `makeAppSettingWindow`. -/
def halfRightBtn (m : Monitor) : Option SizePreset := createSizeButton m 2 1

/-- The preset `fullBtn` of `makeAppSettingWindow`. -/
def fullBtn (m : Monitor) : Option SizePreset := createSizeButton m 1 0

/-! ## Go `slices.SortFunc` (standard library, pattern-defeating quicksort)

The sort is not part of the repository. Its data is a list indexed from `0`; an index that
is out of range (a run-time panic in Go) leaves the data unchanged, and no call made by
`slicesSortFunc` uses one. Loops that are not structurally bounded carry a step budget that
is at least the number of iterations the loop can make. The pseudo-random generator of
`breakPatternsCmpFunc` is an input (`next`), so that nothing depends on its constants. -/

/-- The exchange `data[i], data[j] = data[j], data[i]`. -/
def swapAt {α : Type} (data : List α) (i j : Nat) : List α :=
  match data[i]?, data[j]? with
  | some x, some y => (data.set i y).set j x
  | _, _ => data

/-- The test `cmp(data[i], data[j]) < 0`. -/
def lessAt {α : Type} (cmp : α → α → Int) (data : List α) (i j : Nat) : Bool :=
  match data[i]?, data[j]? with
  | some x, some y => decide (cmp x y < 0)
  | _, _ => false

/-- Inner loop of `insertionSortCmpFunc`:
`for j := i; j > a && cmp(data[j], data[j-1]) < 0; j-- { swap(j, j-1) }`. -/
def insertionInner {α : Type} (cmp : α → α → Int) (a : Nat) : Nat → List α → List α
  | 0, data => data
  | j + 1, data =>
    if a < j + 1 ∧ lessAt cmp data (j + 1) j = true then
      insertionInner cmp a j (swapAt data (j + 1) j)
    else data

/-- Go `insertionSortCmpFunc(data, a, b, cmp)`: `for i := a + 1; i < b; i++ { ... }`. -/
def insertionSortCmpFunc {α : Type} (cmp : α → α → Int) (data : List α) (a b : Nat) :
    List α :=
  (List.range' (a + 1) (b - (a + 1))).foldl (fun d i => insertionInner cmp a i d) data

/-- Loop of `siftDownCmpFunc` from `root`; each step moves `root` to a larger child below
`hi`, so `hi` steps are enough. -/
def siftDownLoop {α : Type} (cmp : α → α → Int) (hi first : Nat) :
    Nat → Nat → List α → List α
  | 0, _, data => data
  | steps + 1, root, data =>
    let child := 2 * root + 1
    if child ≥ hi then data
    else
      let child :=
        if child + 1 < hi ∧ lessAt cmp data (first + child) (first + child + 1) = true then
          child + 1
        else child
      if lessAt cmp data (first + root) (first + child) = false then data
      else siftDownLoop cmp hi first steps child (swapAt data (first + root) (first + child))

/-- Go `siftDownCmpFunc(data, lo, hi, first, cmp)`. -/
def siftDownCmpFunc {α : Type} (cmp : α → α → Int) (data : List α) (lo hi first : Nat) :
    List α :=
  siftDownLoop cmp hi first hi lo data

/-- Go `heapSortCmpFunc(data, a, b, cmp)`. -/
def heapSortCmpFunc {α : Type} (cmp : α → α → Int) (data : List α) (a b : Nat) : List α :=
  let first := a
  let lo := 0
  let hi := b - a
  let data :=
    (List.range ((hi - 1) / 2 + 1)).reverse.foldl
      (fun d i => siftDownCmpFunc cmp d i hi first) data
  (List.range hi).reverse.foldl
    (fun d i => siftDownCmpFunc cmp (swapAt d first (first + i)) lo i first) data

/-- Counts the binary digits of `n`, one per step. -/
def bitsLenLoop : Nat → Nat → Nat
  | 0, _ => 0
  | steps + 1, n => if n = 0 then 0 else bitsLenLoop steps (n / 2) + 1

/-- Go `bits.Len`: the number of bits needed to write `n` (at most `n` of them). -/
def bitsLen (n : Nat) : Nat := bitsLenLoop n n

/-- Go `nextPowerOfTwo(length)`: `1 << bits.Len(uint(length))`. -/
def nextPowerOfTwo (length : Nat) : Nat := 2 ^ bitsLen length

/-- Loop `for i := 0; i < 3; i++` of `breakPatternsCmpFunc`; `random` is the generator
state and `count` the number of iterations left. -/
def breakPatternsLoop {α : Type} (next : Nat → Nat) (a length modulus idx : Nat) :
    Nat → Nat → Nat → List α → List α
  | 0, _, _, data => data
  | count + 1, i, random, data =>
    let random := next random
    let other := random &&& (modulus - 1)
    let other := if other ≥ length then other - length else other
    breakPatternsLoop next a length modulus idx count (i + 1) random
      (swapAt data (idx - 1 + i) (a + other))

/-- Go `breakPatternsCmpFunc(data, a, b, cmp)`. -/
def breakPatternsCmpFunc {α : Type} (next : Nat → Nat) (data : List α) (a b : Nat) :
    List α :=
  let length := b - a
  if length ≥ 8 then
    let random := length
    let modulus := nextPowerOfTwo length
    let idx := a + (length / 4) * 2 - 1
    breakPatternsLoop next a length modulus idx 3 0 random data
  else data

/-- Go `sortedHint`. -/
inductive sortedHint where
  | unknownHint
  | increasingHint
  | decreasingHint
deriving DecidableEq, Repr

/-- Go `order2CmpFunc(data, a, b, &swaps, cmp)`; the updated `swaps` is the third
component. -/
def order2CmpFunc {α : Type} (cmp : α → α → Int) (data : List α) (a b swaps : Nat) :
    Nat × Nat × Nat :=
  if lessAt cmp data b a = true then (b, a, swaps + 1) else (a, b, swaps)

/-- Go `medianCmpFunc(data, a, b, c, &swaps, cmp)`; the updated `swaps` is the second
component. -/
def medianCmpFunc {α : Type} (cmp : α → α → Int) (data : List α) (a b c swaps : Nat) :
    Nat × Nat :=
  let ab := order2CmpFunc cmp data a b swaps
  let bc := order2CmpFunc cmp data ab.2.1 c ab.2.2
  let ab := order2CmpFunc cmp data ab.1 bc.1 bc.2.2
  (ab.2.1, ab.2.2)

/-- Go `medianAdjacentCmpFunc(data, a, &swaps, cmp)`. -/
def medianAdjacentCmpFunc {α : Type} (cmp : α → α → Int) (data : List α) (a swaps : Nat) :
    Nat × Nat :=
  medianCmpFunc cmp data (a - 1) a (a + 1) swaps

/-- Go `choosePivotCmpFunc(data, a, b, cmp)`. -/
def choosePivotCmpFunc {α : Type} (cmp : α → α → Int) (data : List α) (a b : Nat) :
    Nat × sortedHint :=
  let l := b - a
  let i := a + l / 4 * 1
  let j := a + l / 4 * 2
  let k := a + l / 4 * 3
  let js : Nat × Nat :=
    if l ≥ 8 then
      if l ≥ 50 then
        let i := medianAdjacentCmpFunc cmp data i 0
        let j := medianAdjacentCmpFunc cmp data j i.2
        let k := medianAdjacentCmpFunc cmp data k j.2
        medianCmpFunc cmp data i.1 j.1 k.1 k.2
      else medianCmpFunc cmp data i j k 0
    else (j, 0)
  if js.2 = 0 then (js.1, sortedHint.increasingHint)
  else if js.2 = 12 then (js.1, sortedHint.decreasingHint)
  else (js.1, sortedHint.unknownHint)

/-- Loop of `reverseRangeCmpFunc`: `for i < j { swap(i, j); i++; j-- }`. -/
def reverseRangeLoop {α : Type} : Nat → Nat → Nat → List α → List α
  | 0, _, _, data => data
  | steps + 1, i, j, data =>
    if i < j then reverseRangeLoop steps (i + 1) (j - 1) (swapAt data i j) else data

/-- Go `reverseRangeCmpFunc(data, a, b, cmp)`. -/
def reverseRangeCmpFunc {α : Type} (data : List α) (a b : Nat) : List α :=
  reverseRangeLoop (b - a) a (b - 1) data

/-- The scan `for i <= j && cmp(data[i], data[a]) < 0 { i++ }`. -/
def scanLessUp {α : Type} (cmp : α → α → Int) (data : List α) (a j : Nat) : Nat → Nat → Nat
  | 0, i => i
  | steps + 1, i =>
    if i ≤ j ∧ lessAt cmp data i a = true then scanLessUp cmp data a j steps (i + 1) else i

/-- The scan `for i <= j && !(cmp(data[j], data[a]) < 0) { j-- }`. -/
def scanNotLessDown {α : Type} (cmp : α → α → Int) (data : List α) (a i : Nat) :
    Nat → Nat → Nat
  | 0, j => j
  | steps + 1, j =>
    if i ≤ j ∧ lessAt cmp data j a = false then scanNotLessDown cmp data a i steps (j - 1)
    else j

/-- The scan `for i <= j && !(cmp(data[a], data[i]) < 0) { i++ }`. -/
def scanNotGreaterUp {α : Type} (cmp : α → α → Int) (data : List α) (a j : Nat) :
    Nat → Nat → Nat
  | 0, i => i
  | steps + 1, i =>
    if i ≤ j ∧ lessAt cmp data a i = false then scanNotGreaterUp cmp data a j steps (i + 1)
    else i

/-- The scan `for i <= j && cmp(data[a], data[j]) < 0 { j-- }`. -/
def scanGreaterDown {α : Type} (cmp : α → α → Int) (data : List α) (a i : Nat) :
    Nat → Nat → Nat
  | 0, j => j
  | steps + 1, j =>
    if i ≤ j ∧ lessAt cmp data a j = true then scanGreaterDown cmp data a i steps (j - 1)
    else j

/-- The `for { ... }` loop of `partitionCmpFunc`; the result is the data and the final `j`. -/
def partitionLoop {α : Type} (cmp : α → α → Int) (a : Nat) :
    Nat → List α → Nat → Nat → List α × Nat
  | 0, data, _, j => (data, j)
  | steps + 1, data, i, j =>
    let i := scanLessUp cmp data a j (j + 1 - i) i
    let j := scanNotLessDown cmp data a i (j + 1 - i) j
    if i > j then (data, j)
    else partitionLoop cmp a steps (swapAt data i j) (i + 1) (j - 1)

/-- Go `partitionCmpFunc(data, a, b, pivot, cmp)`: the data, `newpivot` and
`alreadyPartitioned`. -/
def partitionCmpFunc {α : Type} (cmp : α → α → Int) (data : List α) (a b pivot : Nat) :
    List α × Nat × Bool :=
  let data := swapAt data a pivot
  let i := a + 1
  let j := b - 1
  let i := scanLessUp cmp data a j (j + 1 - i) i
  let j := scanNotLessDown cmp data a i (j + 1 - i) j
  if i > j then (swapAt data j a, j, true)
  else
    let data := swapAt data i j
    match partitionLoop cmp a (b - a) data (i + 1) (j - 1) with
    | (data, j) => (swapAt data j a, j, false)

/-- The `for { ... }` loop of `partitionEqualCmpFunc`; the result is the data and the final
`i`. -/
def partitionEqualLoop {α : Type} (cmp : α → α → Int) (a : Nat) :
    Nat → List α → Nat → Nat → List α × Nat
  | 0, data, i, _ => (data, i)
  | steps + 1, data, i, j =>
    let i := scanNotGreaterUp cmp data a j (j + 1 - i) i
    let j := scanGreaterDown cmp data a i (j + 1 - i) j
    if i > j then (data, i)
    else partitionEqualLoop cmp a steps (swapAt data i j) (i + 1) (j - 1)

/-- Go `partitionEqualCmpFunc(data, a, b, pivot, cmp)`: the data and `newpivot`. -/
def partitionEqualCmpFunc {α : Type} (cmp : α → α → Int) (data : List α) (a b pivot : Nat) :
    List α × Nat :=
  let data := swapAt data a pivot
  partitionEqualLoop cmp a (b - a + 1) data (a + 1) (b - 1)

/-- The scan `for i < b && !(cmp(data[i], data[i-1]) < 0) { i++ }`. -/
def scanSortedUp {α : Type} (cmp : α → α → Int) (data : List α) (b : Nat) : Nat → Nat → Nat
  | 0, i => i
  | steps + 1, i =>
    if i < b ∧ lessAt cmp data i (i - 1) = false then scanSortedUp cmp data b steps (i + 1)
    else i

/-- The loop `for j := i - 1; j >= 1; j-- { if !(cmp(data[j], data[j-1]) < 0) { break };
swap(j, j-1) }`. -/
def shiftSmallerLeft {α : Type} (cmp : α → α → Int) : Nat → List α → List α
  | 0, data => data
  | j + 1, data =>
    if lessAt cmp data (j + 1) j = false then data
    else shiftSmallerLeft cmp j (swapAt data (j + 1) j)

/-- The loop `for j := i + 1; j < b; j++ { if !(cmp(data[j], data[j-1]) < 0) { break };
swap(j, j-1) }`. -/
def shiftGreaterRight {α : Type} (cmp : α → α → Int) (b : Nat) : Nat → Nat → List α → List α
  | 0, _, data => data
  | steps + 1, j, data =>
    if j < b then
      if lessAt cmp data j (j - 1) = false then data
      else shiftGreaterRight cmp b steps (j + 1) (swapAt data j (j - 1))
    else data

/-- The loop `for j := 0; j < maxSteps; j++` of `partialInsertionSortCmpFunc`; `count` is
the number of iterations left. -/
def partialInsertionLoop {α : Type} (cmp : α → α → Int) (a b : Nat) :
    Nat → Nat → List α → List α × Bool
  | 0, _, data => (data, false)
  | count + 1, i, data =>
    let i := scanSortedUp cmp data b (b - i) i
    if i = b then (data, true)
    else if b - a < 50 then (data, false)
    else
      let data := swapAt data i (i - 1)
      let data := if i - a ≥ 2 then shiftSmallerLeft cmp (i - 1) data else data
      let data := if b - i ≥ 2 then shiftGreaterRight cmp b (b - i) (i + 1) data else data
      partialInsertionLoop cmp a b count i data

/-- Go `partialInsertionSortCmpFunc(data, a, b, cmp)`: the data and whether the range is
sorted at the end. -/
def partialInsertionSortCmpFunc {α : Type} (cmp : α → α → Int) (data : List α) (a b : Nat) :
    List α × Bool :=
  partialInsertionLoop cmp a b 5 (a + 1) data

/-- Go `pdqsortCmpFunc(data, a, b, limit, cmp)`. Every pass of its loop that does not return
continues on (and recurses into) strictly shorter ranges, so a budget above the range length
is never exhausted. -/
def pdqsortCmpFunc {α : Type} (next : Nat → Nat) (cmp : α → α → Int) :
    Nat → List α → Nat → Nat → Nat → Bool → Bool → List α
  | 0, data, _, _, _, _, _ => data
  | steps + 1, data, a, b, limit, wasBalanced, wasPartitioned =>
    let length := b - a
    if length ≤ 12 then insertionSortCmpFunc cmp data a b
    else if limit = 0 then heapSortCmpFunc cmp data a b
    else
      let data := if wasBalanced then data else breakPatternsCmpFunc next data a b
      let limit := if wasBalanced then limit else limit - 1
      let ph := choosePivotCmpFunc cmp data a b
      let reversed := decide (ph.2 = sortedHint.decreasingHint)
      let data := if reversed then reverseRangeCmpFunc data a b else data
      let pivot := if reversed then (b - 1) - (ph.1 - a) else ph.1
      let hint := if reversed then sortedHint.increasingHint else ph.2
      let ps : List α × Bool :=
        if wasBalanced ∧ wasPartitioned ∧ hint = sortedHint.increasingHint then
          partialInsertionSortCmpFunc cmp data a b
        else (data, false)
      if ps.2 then ps.1
      else
        let data := ps.1
        if a > 0 ∧ lessAt cmp data (a - 1) pivot = false then
          match partitionEqualCmpFunc cmp data a b pivot with
          | (data, mid) =>
            pdqsortCmpFunc next cmp steps data mid b limit wasBalanced wasPartitioned
        else
          match partitionCmpFunc cmp data a b pivot with
          | (data, mid, alreadyPartitioned) =>
            let leftLen := mid - a
            let rightLen := b - mid
            let balanceThreshold := length / 8
            if leftLen < rightLen then
              let data := pdqsortCmpFunc next cmp steps data a mid limit true true
              pdqsortCmpFunc next cmp steps data (mid + 1) b limit
                (decide (leftLen ≥ balanceThreshold)) alreadyPartitioned
            else
              let data := pdqsortCmpFunc next cmp steps data (mid + 1) b limit true true
              pdqsortCmpFunc next cmp steps data a mid limit
                (decide (rightLen ≥ balanceThreshold)) alreadyPartitioned

/-- Go `slices.SortFunc(x, cmp)`: `pdqsortCmpFunc(x, 0, n, bits.Len(uint(n)), cmp)`. -/
def slicesSortFunc {α : Type} (next : Nat → Nat) (cmp : α → α → Int) (x : List α) : List α :=
  let n := x.length
  pdqsortCmpFunc next cmp (n + 1) x 0 n (bitsLen n) true true


/-! ## Window list for the dialog (`gui_appsetting.go`) -/

/-- The two slices `getWindowsForSelect` works with. -/
structure SelectSlices where
  allWindows : List Window
  copyOfWindows : List Window
deriving DecidableEq, Repr

/-- The comparator passed to `slices.SortFunc` by `getWindowsForSelect`; `toLower` is Go
`strings.ToLower`. -/
def windowCmp (toLower : GoString → GoString) (a b : Window) : Int :=
  stringsCompare (toLower a.String) (toLower b.String)

/-- Body of `getWindowsForSelect` with both slices explicit: the filter loop appends to the
fresh `copyOfWindows`, which is then sorted in place by `slices.SortFunc`. `next` is the
generator inside `slices.SortFunc`, `getWindowStyle` the OS style query and `toLower` Go
`strings.ToLower`. -/
def getWindowsForSelectSlices (next : Nat → Nat)
    (getWindowStyle : Nat → Int) (toLower : GoString → GoString)
    (allWindows : List Window) : SelectSlices :=
  let copyOfWindows : List Window :=
    allWindows.foldl
      (fun copy window =>
        if isValidWindowForSelection getWindowStyle window then copy ++ [window] else copy)
      []
  { allWindows := allWindows
    copyOfWindows := slicesSortFunc next (windowCmp toLower) copyOfWindows }

/-- The function `getWindowsForSelect`. -/
def getWindowsForSelect (next : Nat → Nat)
    (getWindowStyle : Nat → Int) (toLower : GoString → GoString)
    (allWindows : List Window) : List Window :=
  (getWindowsForSelectSlices next getWindowStyle toLower allWindows).copyOfWindows

/-! ## Window updates in the dialog (`gui_appsetting.go`) -/

/-- Modelled from the spec: the widget `ui.Select[T]` is missing from the sources; its state
is the option list and the optional current selection (`Selected`, `nil` when empty). -/
structure Select (T : Type) where
  options : List T
  Selected : Option T
deriving DecidableEq, Repr

/-- Modelled from the spec: `ui.Select.SetOptions` is missing from the sources; it replaces
the option list. -/
def Select.SetOptions {T : Type} (s : Select T) (options : List T) : Select T :=
  { s with options := options }

/-- Modelled from the spec: `ui.Select.ClearSelected` is missing from the sources; it empties
the selection. -/
def Select.ClearSelected {T : Type} (s : Select T) : Select T :=
  { s with Selected := none }

/-- What the window-update callback reads and writes: its captured `windowsForSelect` and the
package-level `applicationSelect`. -/
structure DialogState where
  windowsForSelect : List Window
  applicationSelect : Select Window
deriving DecidableEq, Repr

/-- The callback that `subscribeToWindowUpdates` passes to `windowObs.Subscribe`, run on one
delivered snapshot `windows`. -/
def windowUpdateCallback (next : Nat → Nat)
    (getWindowStyle : Nat → Int) (toLower : GoString → GoString)
    (st : DialogState) (windows : List Window) : DialogState :=
  if windows.length = 0 then
    st
  else
    let windowsForSelect := getWindowsForSelect next getWindowStyle toLower windows
    let applicationSelect := st.applicationSelect.SetOptions windowsForSelect
    match applicationSelect.Selected with
    | some selected =>
      if slicesIndex windowsForSelect selected = -1 then
        { windowsForSelect := windowsForSelect
          applicationSelect := applicationSelect.ClearSelected }
      else
        { windowsForSelect := windowsForSelect, applicationSelect := applicationSelect }
    | none => { windowsForSelect := windowsForSelect, applicationSelect := applicationSelect }

/-- The function `subscribeToWindowUpdates`: the callback it registers, `none` when it
returns the empty subscription (`!isNew`). -/
def subscribeToWindowUpdates (next : Nat → Nat)
    (getWindowStyle : Nat → Int) (toLower : GoString → GoString) (isNew : Bool) :
    Option (DialogState → List Window → DialogState) :=
  if !isNew then none
  else some (windowUpdateCallback next getWindowStyle toLower)

/-! ## Monitor enumeration (`winapi.go`) -/

/-- What the OS reports for one monitor while `EnumDisplayMonitors` runs the callback of
`getMonitors`: the outcome of `GetMonitorInfo`, the `RcMonitor` rectangle and `DwFlags` it
fills in, the result `ret` of `EnumDisplaySettingsW` and the mode dimensions in `devMode`. -/
structure MonitorReport where
  infoOk : Bool
  rcLeft : Int
  rcTop : Int
  rcRight : Int
  rcBottom : Int
  dwFlags : Nat
  ret : Nat
  dmPelsWidth : Nat
  dmPelsHeight : Nat
deriving DecidableEq, Repr

/-- Win32 `MONITORINFOF_PRIMARY`. -/
def MONITORINFOF_PRIMARY : Nat := 1

/-- The variables `monitors` and `index` of `getMonitors` that its callback updates. -/
structure EnumState where
  monitors : List Monitor
  index : Int
deriving DecidableEq, Repr

/-- The callback of `getMonitors`, run for one reported monitor. -/
def monitorEnumProc (st : EnumState) (r : MonitorReport) : EnumState :=
  if r.infoOk then
    let width := wrapInt32 (r.dmPelsWidth : Int)
    let height := wrapInt32 (r.dmPelsHeight : Int)
    let fallback : Bool := decide (r.ret = 0 ∨ width = 0 ∨ height = 0)
    let width := if fallback then sub32 r.rcRight r.rcLeft else width
    let height := if fallback then sub32 r.rcBottom r.rcTop else height
    let index := addInt st.index 1
    { monitors :=
        st.monitors ++
          [{ number := index
             isPrimary := decide (r.dwFlags &&& MONITORINFOF_PRIMARY ≠ 0)
             width := width
             height := height
             left := r.rcLeft
             top := r.rcTop }]
      index := index }
  else st

/-- The function `getMonitors`; `reports` is what the OS enumeration delivers, in order. -/
def getMonitors (reports : List MonitorReport) : List Monitor :=
  (reports.foldl monitorEnumProc { monitors := [], index := 0 }).monitors

/-- The resolved `(width, height)` of a monitor as the geometry policy words it: the
rectangle span when the mode query failed or a converted mode dimension is zero, the mode
dimensions otherwise. -/
def resolvedGeometry (r : MonitorReport) : Int × Int :=
  if r.ret = 0 ∨ wrapInt32 (r.dmPelsWidth : Int) = 0 ∨ wrapInt32 (r.dmPelsHeight : Int) = 0 then
    (sub32 r.rcRight r.rcLeft, sub32 r.rcBottom r.rcTop)
  else
    (wrapInt32 (r.dmPelsWidth : Int), wrapInt32 (r.dmPelsHeight : Int))

/-! ## Specification vocabulary -/

/-- The relation between a returned monitor and the report it was built from. -/
def BuiltFrom (number : Int) (m : Monitor) (r : MonitorReport) : Prop :=
  m.number = number ∧ m.left = r.rcLeft ∧ m.top = r.rcTop ∧
    (m.width, m.height) = resolvedGeometry r ∧
    m.isPrimary = decide (r.dwFlags &&& MONITORINFOF_PRIMARY ≠ 0)

/-- The geometry policy as a relation between a returned monitor and its report: the
rectangle span (in `int32` arithmetic, hence the exact difference whenever that fits in
`int32`) when the mode query failed or a converted mode dimension is zero, the converted
mode dimensions otherwise; in particular a mode width of zero gives the width
`right - left`. -/
def ResolvedPerPolicy (m : Monitor) (r : MonitorReport) : Prop :=
  (m.width, m.height) = resolvedGeometry r ∧
    ((r.ret = 0 ∨ wrapInt32 (r.dmPelsWidth : Int) = 0 ∨
        wrapInt32 (r.dmPelsHeight : Int) = 0) →
      m.width = sub32 r.rcRight r.rcLeft ∧ m.height = sub32 r.rcBottom r.rcTop ∧
        (IsInt32 (r.rcRight - r.rcLeft) → m.width = r.rcRight - r.rcLeft) ∧
        (IsInt32 (r.rcBottom - r.rcTop) → m.height = r.rcBottom - r.rcTop)) ∧
    (¬ (r.ret = 0 ∨ wrapInt32 (r.dmPelsWidth : Int) = 0 ∨
        wrapInt32 (r.dmPelsHeight : Int) = 0) →
      m.width = wrapInt32 (r.dmPelsWidth : Int) ∧
        m.height = wrapInt32 (r.dmPelsHeight : Int)) ∧
    (r.dmPelsWidth = 0 → m.width = sub32 r.rcRight r.rcLeft)

/-- The three cases in which the monitor lookup of `makeAppSettingWindow` is said to be in
range, for a monitors list of length `n`: (a) an existing profile with
`1 <= appSetting.Monitor <= n`, (b) a new profile with `1 <= Defaults.Monitor <= n`, (c) a
new profile with `Defaults.Monitor <= 0` and a primary monitor in the list. -/
def LookupCasesAsStated (monitors : List Monitor) (settings : Settings)
    (appSetting : AppSetting) (isNew : Bool) : Prop :=
  (isNew = false ∧ 1 ≤ appSetting.Monitor ∧ appSetting.Monitor ≤ monitors.length) ∨
    (isNew = true ∧ 1 ≤ settings.Defaults.Monitor ∧
      settings.Defaults.Monitor ≤ monitors.length) ∨
    (isNew = true ∧ settings.Defaults.Monitor ≤ 0 ∧ ∃ m ∈ monitors, m.isPrimary = true)

instance (monitors : List Monitor) (settings : Settings) (appSetting : AppSetting)
    (isNew : Bool) : Decidable (LookupCasesAsStated monitors settings appSetting isNew) := by
  unfold LookupCasesAsStated
  infer_instance

/-- The requirement of `slices.SortFunc` on its comparator: `cmp(a, b) < 0` is a strict weak
ordering (irreflexive, transitive, with transitive incomparability). -/
def IsStrictWeakOrdering {α : Type} (cmp : α → α → Int) : Prop :=
  (∀ a, ¬ cmp a a < 0) ∧
    (∀ a b c, cmp a b < 0 → cmp b c < 0 → cmp a c < 0) ∧
    (∀ a b c, (¬ cmp a b < 0 ∧ ¬ cmp b a < 0) → (¬ cmp b c < 0 ∧ ¬ cmp c b < 0) →
      (¬ cmp a c < 0 ∧ ¬ cmp c a < 0))

/-- Window `a` occurs before window `b` in the list. -/
def Precedes (a b : Window) (l : List Window) : Prop := [a, b].Sublist l

instance (a b : Window) (l : List Window) : Decidable (Precedes a b l) := by
  unfold Precedes
  infer_instance

/-- Thirteen windows, the first titled "b" and the other twelve titled "a". -/
def thirteenWindows : List Window :=
  [⟨0, ascii "b", [], 0⟩, ⟨1, ascii "a", [], 0⟩, ⟨2, ascii "a", [], 0⟩,
   ⟨3, ascii "a", [], 0⟩, ⟨4, ascii "a", [], 0⟩, ⟨5, ascii "a", [], 0⟩,
   ⟨6, ascii "a", [], 0⟩, ⟨7, ascii "a", [], 0⟩, ⟨8, ascii "a", [], 0⟩,
   ⟨9, ascii "a", [], 0⟩, ⟨10, ascii "a", [], 0⟩, ⟨11, ascii "a", [], 0⟩,
   ⟨12, ascii "a", [], 0⟩]

/-- A style query under which every window has a caption and a resizable border
(`WS_OVERLAPPEDWINDOW`). -/
def overlappedStyle : Nat → Int := fun _ => 0x00CF0000


/-! ## Sorting: proof vocabulary -/

/-- The element at index `i`, or the default element when `i` is out of range. -/
def gv {α : Type} [Inhabited α] (d : List α) (i : Nat) : α := d.getD i default

/-- Between `d` and `d'` only the positions in `[a, b)` may differ, and every element of
that range in `d'` comes from that range in `d`. -/
def Within {α : Type} [Inhabited α] (a b : Nat) (d d' : List α) : Prop :=
  d'.length = d.length ∧
    (∀ k, k < a ∨ b ≤ k → gv d' k = gv d k) ∧
    (∀ i, a ≤ i → i < b → ∃ j, a ≤ j ∧ j < b ∧ gv d' i = gv d j)

/-- The range `[a, b)` of `d` is in ascending order under `cmp`. -/
def SortedOn {α : Type} [Inhabited α] (cmp : α → α → Int) (d : List α) (a b : Nat) : Prop :=
  ∀ i j, a ≤ i → i < j → j < b → ¬ cmp (gv d j) (gv d i) < 0

/-- The data `pdqsortCmpFunc` goes on with after the optional `breakPatternsCmpFunc`. -/
def pdqBroken {α : Type} (next : Nat → Nat) (d : List α) (a b : Nat) (wb : Bool) : List α :=
  if wb = true then d else breakPatternsCmpFunc next d a b

/-- The `limit` of `pdqsortCmpFunc` after the optional decrement. -/
def pdqLimit (limit : Nat) (wb : Bool) : Nat := if wb = true then limit else limit - 1

/-- The data of `pdqsortCmpFunc` after the optional `reverseRangeCmpFunc`. -/
def pdqReversed {α : Type} (cmp : α → α → Int) (d : List α) (a b : Nat) : List α :=
  if (choosePivotCmpFunc cmp d a b).2 = sortedHint.decreasingHint then
    reverseRangeCmpFunc d a b
  else d

/-- The pivot position of `pdqsortCmpFunc`, mirrored when the range was reversed. -/
def pdqPivot {α : Type} (cmp : α → α → Int) (d : List α) (a b : Nat) : Nat :=
  if (choosePivotCmpFunc cmp d a b).2 = sortedHint.decreasingHint then
    (b - 1) - ((choosePivotCmpFunc cmp d a b).1 - a)
  else (choosePivotCmpFunc cmp d a b).1

/-- The hint of `pdqsortCmpFunc` after the optional reversal. -/
def pdqHint {α : Type} (cmp : α → α → Int) (d : List α) (a b : Nat) : sortedHint :=
  if (choosePivotCmpFunc cmp d a b).2 = sortedHint.decreasingHint then
    sortedHint.increasingHint
  else (choosePivotCmpFunc cmp d a b).2

/-- The data of `pdqsortCmpFunc` after the optional `partialInsertionSortCmpFunc`, and
whether that call reported the range sorted. -/
def pdqInserted {α : Type} (cmp : α → α → Int) (d : List α) (a b : Nat) (wb wp : Bool) :
    List α × Bool :=
  if wb = true ∧ wp = true ∧ pdqHint cmp d a b = sortedHint.increasingHint then
    partialInsertionSortCmpFunc cmp (pdqReversed cmp d a b) a b
  else (pdqReversed cmp d a b, false)

/-- The data `pdqsortCmpFunc` partitions in one pass of its loop. -/
def pdqReady {α : Type} (next : Nat → Nat) (cmp : α → α → Int) (d : List α) (a b : Nat)
    (wb wp : Bool) : List α :=
  (pdqInserted cmp (pdqBroken next d a b wb) a b wb wp).1

/-- Whether one pass of `pdqsortCmpFunc` returns after `partialInsertionSortCmpFunc`. -/
def pdqDone {α : Type} (next : Nat → Nat) (cmp : α → α → Int) (d : List α) (a b : Nat)
    (wb wp : Bool) : Bool :=
  (pdqInserted cmp (pdqBroken next d a b wb) a b wb wp).2

/-- The pivot position used by one pass of `pdqsortCmpFunc`. -/
def pdqPivotAt {α : Type} (next : Nat → Nat) (cmp : α → α → Int) (d : List α) (a b : Nat)
    (wb : Bool) : Nat :=
  pdqPivot cmp (pdqBroken next d a b wb) a b

/-- The end of one pass of `pdqsortCmpFunc` after `partitionCmpFunc` returned `q`: the
shorter side is sorted by the recursive call, the longer one by the next pass. -/
def pdqSplit {α : Type} (recur : List α → Nat → Nat → Nat → Bool → Bool → List α)
    (q : List α × Nat × Bool) (a b limit : Nat) : List α :=
  if q.2.1 - a < b - q.2.1 then
    recur (recur q.1 a q.2.1 limit true true) (q.2.1 + 1) b limit
      (decide (q.2.1 - a ≥ (b - a) / 8)) q.2.2
  else
    recur (recur q.1 (q.2.1 + 1) b limit true true) a q.2.1 limit
      (decide (b - q.2.1 ≥ (b - a) / 8)) q.2.2

/-- An upward scan `for i <= j && test(i) { i++ }`. -/
def scanUp (test : Nat → Bool) (j : Nat) : Nat → Nat → Nat
  | 0, i => i
  | steps + 1, i => if i ≤ j ∧ test i = true then scanUp test j steps (i + 1) else i

/-- A downward scan `for i <= j && test(j) { j-- }`. -/
def scanDown (test : Nat → Bool) (i : Nat) : Nat → Nat → Nat
  | 0, j => j
  | steps + 1, j => if i ≤ j ∧ test j = true then scanDown test i steps (j - 1) else j

/-- The loop shared by `partitionCmpFunc` and `partitionEqualCmpFunc`: scan up while the
test holds, scan down while it fails, exchange, repeat. The result is the data and the final
`i` and `j`. -/
def hoareLoop {α : Type} (T : List α → Nat → Bool) :
    Nat → List α → Nat → Nat → List α × Nat × Nat
  | 0, d, i, j => (d, i, j)
  | steps + 1, d, i, j =>
    if scanUp (T d) j (j + 1 - i) i >
        scanDown (fun k => !T d k) (scanUp (T d) j (j + 1 - i) i)
          (j + 1 - scanUp (T d) j (j + 1 - i) i) j then
      (d, scanUp (T d) j (j + 1 - i) i,
        scanDown (fun k => !T d k) (scanUp (T d) j (j + 1 - i) i)
          (j + 1 - scanUp (T d) j (j + 1 - i) i) j)
    else
      hoareLoop T steps
        (swapAt d (scanUp (T d) j (j + 1 - i) i)
          (scanDown (fun k => !T d k) (scanUp (T d) j (j + 1 - i) i)
            (j + 1 - scanUp (T d) j (j + 1 - i) i) j))
        (scanUp (T d) j (j + 1 - i) i + 1)
        (scanDown (fun k => !T d k) (scanUp (T d) j (j + 1 - i) i)
          (j + 1 - scanUp (T d) j (j + 1 - i) i) j - 1)

/-- The element left of the range is not greater than any element of the range. -/
def LeftBound {α : Type} [Inhabited α] (cmp : α → α → Int) (d : List α) (a b : Nat) : Prop :=
  0 < a → ∀ k, a ≤ k → k < b → ¬ cmp (gv d k) (gv d (a - 1)) < 0

/-- In the heap laid out from position `first`, the node `p` is not less than its children
below `hi`. -/
def HeapAt {α : Type} [Inhabited α] (cmp : α → α → Int) (d : List α) (first hi p : Nat) :
    Prop :=
  ∀ c, (c = 2 * p + 1 ∨ c = 2 * p + 2) → c < hi →
    ¬ cmp (gv d (first + p)) (gv d (first + c)) < 0

/-- What the recursive calls of one pass of `pdqsortCmpFunc` are known to do. -/
def SortsRanges {α : Type} [Inhabited α] (cmp : α → α → Int) (steps : Nat)
    (recur : List α → Nat → Nat → Nat → Bool → Bool → List α) : Prop :=
  ∀ d a b limit wb wp, a ≤ b → b ≤ d.length → b - a < steps → LeftBound cmp d a b →
    Within a b d (recur d a b limit wb wp) ∧ SortedOn cmp (recur d a b limit wb wp) a b


/-! ## Machine-integer facts -/

theorem and32_mask (s : Int) (m : Nat) (hm : m < 2147483648) :
    and32 s (m : Int) = ((bits32 s &&& m : Nat) : Int) := by
  have hb : bits32 (m : Int) = m := by
    unfold bits32
    omega
  have hle : bits32 s &&& m ≤ m := Nat.and_le_right
  unfold and32 wrapInt32
  rw [hb]
  omega

theorem wrapInt32_of_isInt32 (x : Int) (h : IsInt32 x) : wrapInt32 x = x := by
  unfold IsInt32 at h
  unfold wrapInt32
  omega

theorem and32_single_bit (s : Int) (k : Nat) (hk : k < 31) :
    and32 s ((2 ^ k : Nat) : Int) > 0 ↔
      and32 s ((2 ^ k : Nat) : Int) = ((2 ^ k : Nat) : Int) := by
  have hlt : 2 ^ k < 2147483648 := by
    have : (2:Nat) ^ k < 2 ^ 31 := Nat.pow_lt_pow_right (by norm_num) hk
    simpa using this
  rw [and32_mask s _ hlt, Nat.and_two_pow]
  have hpos : 0 < 2 ^ k := Nat.pos_pow_of_pos k (by norm_num)
  cases (bits32 s).testBit k
  · simp
    exact (pow_pos (by norm_num) k).ne
  · simp [hpos]

/-! ## C1: window classification -/

/-- C1 (as stated, refuted): a style with only the `WS_BORDER` bit set does not have the
caption flag `WS_CAPTION` (not all of its bits are set), yet `isValidWindowForSelection`
returns true for it; so the result is not equivalent to "has `WS_CAPTION` and (has
`WS_THICKFRAME` or has `WS_BORDER`)". -/
theorem isValidWindowForSelection_caption_counterexample :
    ¬ (isValidWindowForSelection (fun _ => 0x00800000) ⟨1, [], [], 0⟩ = true ↔
        hasFlag 0x00800000 WS_CAPTION ∧
          (hasFlag 0x00800000 WS_THICKFRAME ∨ hasFlag 0x00800000 WS_BORDER)) := by
  decide

/-- C1 (amended): for every style `s` returned by `getWindowStyle`,
`isValidWindowForSelection` returns true if and only if at least one bit of `WS_CAPTION` is
set in `s` and (`s` has `WS_THICKFRAME` or `s` has `WS_BORDER`), a style having a flag when
all bits of the flag are set in it. -/
theorem isValidWindowForSelection_iff (getWindowStyle : Nat → Int) (w : Window) :
    isValidWindowForSelection getWindowStyle w = true ↔
      hasSomeBit (getWindowStyle w.hwnd) WS_CAPTION ∧
        (hasFlag (getWindowStyle w.hwnd) WS_THICKFRAME ∨
          hasFlag (getWindowStyle w.hwnd) WS_BORDER) := by
  have hB := and32_single_bit (getWindowStyle w.hwnd) 23 (by norm_num)
  have hT := and32_single_bit (getWindowStyle w.hwnd) 18 (by norm_num)
  have hC := and32_mask (getWindowStyle w.hwnd) 12582912 (by norm_num)
  simp only [isValidWindowForSelection, hasSomeBit, hasFlag, WS_CAPTION, WS_BORDER,
    WS_THICKFRAME, Bool.and_eq_true, Bool.or_eq_true, decide_eq_true_eq] at *
  norm_num at hB hT hC
  simp only [gt_iff_lt, hB, hT, hC]
  constructor
  · rintro ⟨h1, h2⟩
    exact ⟨by omega, h2.symm⟩
  · rintro ⟨h1, h2⟩
    exact ⟨by omega, h2.symm⟩

/-! ## C10: preset geometry -/

/-- C10: for a monitor whose `int32` width `w` is non-negative, Half Left writes
`(x, y, width, height) = (0, 0, w/2, h)`, Half Right writes `(w/2, 0, w/2, h)` and Full
writes `(0, 0, w, h)`, with `/` the truncating division; the Half Right x offset is the
Half Left width, and Half Right's x offset plus width is `w` for even `w`, `w - 1` for odd
`w`, and never exceeds `w`. -/
theorem createSizeButton_presets (m : Monitor) (hw0 : 0 ≤ m.width)
    (hw : m.width < 2147483648) :
    halfLeftBtn m =
        some { widthText := Int.tdiv m.width 2, heightText := m.height,
               xOffsetText := 0, yOffsetText := 0 } ∧
      halfRightBtn m =
        some { widthText := Int.tdiv m.width 2, heightText := m.height,
               xOffsetText := Int.tdiv m.width 2, yOffsetText := 0 } ∧
      fullBtn m =
        some { widthText := m.width, heightText := m.height,
               xOffsetText := 0, yOffsetText := 0 } ∧
      (∀ l r, halfLeftBtn m = some l → halfRightBtn m = some r →
        r.xOffsetText = l.widthText ∧
        r.xOffsetText + r.widthText = (if m.width % 2 = 0 then m.width else m.width - 1) ∧
        r.xOffsetText + r.widthText ≤ m.width) := by
  have h2 : Int.tdiv m.width 2 = m.width / 2 := by
    rw [Int.tdiv_eq_ediv hw0 (by norm_num)]
  have h1 : Int.tdiv m.width 1 = m.width := by simp
  have hL : halfLeftBtn m =
      some { widthText := Int.tdiv m.width 2, heightText := m.height,
             xOffsetText := 0, yOffsetText := 0 } := by
    simp only [halfLeftBtn, createSizeButton, div32, h2, wrapInt32]
    have : (m.width / 2 + 2147483648) % 4294967296 - 2147483648 = m.width / 2 := by omega
    simp [this]
  have hR : halfRightBtn m =
      some { widthText := Int.tdiv m.width 2, heightText := m.height,
             xOffsetText := Int.tdiv m.width 2, yOffsetText := 0 } := by
    simp only [halfRightBtn, createSizeButton, div32, h2, wrapInt32]
    have : (m.width / 2 + 2147483648) % 4294967296 - 2147483648 = m.width / 2 := by omega
    simp [this]
  have hF : fullBtn m =
      some { widthText := m.width, heightText := m.height,
             xOffsetText := 0, yOffsetText := 0 } := by
    simp only [fullBtn, createSizeButton, div32, h1, wrapInt32]
    have : (m.width + 2147483648) % 4294967296 - 2147483648 = m.width := by omega
    simp [this]
  refine ⟨hL, hR, hF, ?_⟩
  intro l r hl hr
  rw [hL] at hl
  rw [hR] at hr
  cases hl
  cases hr
  simp only [h2]
  refine ⟨trivial, ?_, by omega⟩
  split <;> omega

/-- C10 (witness): the presets of a 1921 x 1080 monitor. -/
theorem createSizeButton_presets_witness :
    halfLeftBtn ⟨1, true, 1921, 1080, 0, 0⟩ = some ⟨960, 1080, 0, 0⟩ ∧
      halfRightBtn ⟨1, true, 1921, 1080, 0, 0⟩ = some ⟨960, 1080, 960, 0⟩ ∧
      fullBtn ⟨1, true, 1921, 1080, 0, 0⟩ = some ⟨1921, 1080, 0, 0⟩ := by
  have h := createSizeButton_presets ⟨1, true, 1921, 1080, 0, 0⟩ (by decide) (by decide)
  exact ⟨h.1, h.2.1, h.2.2.1⟩

/-! ## C4, C9: default monitor index -/

theorem indexFuncFrom_eq {α : Type} (f : α → Bool) (s : List α) (i : Int) :
    indexFuncFrom f i s = if s.any f = true then i + (s.findIdx f : Int) else -1 := by
  induction s generalizing i with
  | nil => simp [indexFuncFrom]
  | cons x xs ih =>
    by_cases hx : f x = true
    · simp [indexFuncFrom, hx, List.findIdx_cons]
    · simp only [Bool.not_eq_true] at hx
      simp only [indexFuncFrom, hx, List.any_cons, Bool.false_or, List.findIdx_cons, ih,
        cond_false, Bool.false_eq_true, if_false]
      split
      · push_cast
        ring
      · rfl

theorem slicesIndexFunc_eq {α : Type} (f : α → Bool) (s : List α) :
    slicesIndexFunc s f = if s.any f = true then (s.findIdx f : Int) else -1 := by
  simp [slicesIndexFunc, indexFuncFrom_eq]

theorem slicesIndexFunc_range {α : Type} (f : α → Bool) (s : List α) :
    (0 ≤ slicesIndexFunc s f ∧ slicesIndexFunc s f < s.length) ↔ ∃ x ∈ s, f x = true := by
  rw [slicesIndexFunc_eq]
  by_cases h : s.any f = true
  · simp only [h, if_true]
    have h' : ∃ x ∈ s, f x = true := by simpa using h
    have hlt : s.findIdx f < s.length := List.findIdx_lt_length_of_exists h'
    constructor
    · intro _
      exact h'
    · intro _
      exact ⟨Int.natCast_nonneg _, by exact_mod_cast hlt⟩
  · have h' : ¬ ∃ x ∈ s, f x = true := by simpa using h
    rw [if_neg h]
    constructor
    · intro hh
      omega
    · intro hh
      exact absurd hh h'

/-- C4 (as stated, refuted): for a new profile whose default monitor number is the smallest
`int`, the number is not set (it is not `>= 1`) and the list has a primary monitor at index
`0`, yet the result is not that index: `Defaults.Monitor - 1` wraps to the largest `int`,
which is not negative, so the primary-monitor search is skipped. -/
theorem getDefaultMonitorIndex_wrap_counterexample :
    ¬ ((¬ (1 : Int) ≤ minInt) →
        getDefaultMonitorIndex [⟨1, true, 1920, 1080, 0, 0⟩]
            ⟨⟨[], [], minInt, 0, 0, 0, 0⟩⟩ ⟨[], [], 1, 0, 0, 0, 0⟩ true =
          slicesIndexFunc [(⟨1, true, 1920, 1080, 0, 0⟩ : Monitor)] (fun m => m.isPrimary)) := by
  decide

/-- C4 (amended): for an existing profile the result is `appSetting.Monitor - 1` in `int`
arithmetic for every stored value, with no fallback (the exact difference whenever the
stored number is not the smallest `int`). For a new profile the result is
`Defaults.Monitor - 1` when `Defaults.Monitor >= 1`; it is the index of the first monitor
with `isPrimary` (`-1` when there is none) when `Defaults.Monitor <= 0` is not the smallest
`int`; and it is the largest `int` when `Defaults.Monitor` is the smallest `int`. -/
theorem getDefaultMonitorIndex_spec (monitors : List Monitor) (settings : Settings)
    (appSetting : AppSetting) :
    getDefaultMonitorIndex monitors settings appSetting false = subInt appSetting.Monitor 1 ∧
      (minInt < appSetting.Monitor → appSetting.Monitor ≤ maxInt →
        getDefaultMonitorIndex monitors settings appSetting false = appSetting.Monitor - 1) ∧
      (1 ≤ settings.Defaults.Monitor → settings.Defaults.Monitor ≤ maxInt →
        getDefaultMonitorIndex monitors settings appSetting true =
          settings.Defaults.Monitor - 1) ∧
      (minInt < settings.Defaults.Monitor → settings.Defaults.Monitor ≤ 0 →
        getDefaultMonitorIndex monitors settings appSetting true =
          if monitors.any (fun m => m.isPrimary) = true then
            (monitors.findIdx (fun m => m.isPrimary) : Int)
          else -1) ∧
      (settings.Defaults.Monitor = minInt →
        getDefaultMonitorIndex monitors settings appSetting true = maxInt) := by
  refine ⟨by simp [getDefaultMonitorIndex], ?_, ?_, ?_, ?_⟩
  · intro h1 h2
    simp only [getDefaultMonitorIndex, subInt, wrapInt64, minInt, maxInt] at *
    simp
    omega
  · intro h1 h2
    have hw : subInt settings.Defaults.Monitor 1 = settings.Defaults.Monitor - 1 := by
      simp only [subInt, wrapInt64, maxInt] at *
      omega
    simp only [getDefaultMonitorIndex, hw]
    have : ¬ settings.Defaults.Monitor - 1 < 0 := by omega
    simp [this]
  · intro h1 h2
    have hw : subInt settings.Defaults.Monitor 1 = settings.Defaults.Monitor - 1 := by
      simp only [subInt, wrapInt64, minInt] at *
      omega
    simp only [getDefaultMonitorIndex, hw]
    have : settings.Defaults.Monitor - 1 < 0 := by omega
    simp [this, slicesIndexFunc_eq]
  · intro h
    simp only [getDefaultMonitorIndex, h]
    have hw : subInt minInt 1 = maxInt := by decide
    rw [hw]
    simp [maxInt]

/-- C4 (witness): with no default set and the primary monitor second in the list, a new
profile gets index `1`. -/
theorem getDefaultMonitorIndex_spec_witness :
    getDefaultMonitorIndex [⟨1, false, 1280, 1024, -1280, 0⟩, ⟨2, true, 1920, 1080, 0, 0⟩]
        ⟨⟨[], [], 0, 0, 0, 0, 0⟩⟩ ⟨[], [], 7, 0, 0, 0, 0⟩ true = 1 :=
  (getDefaultMonitorIndex_spec [⟨1, false, 1280, 1024, -1280, 0⟩, ⟨2, true, 1920, 1080, 0, 0⟩]
    ⟨⟨[], [], 0, 0, 0, 0, 0⟩⟩ ⟨[], [], 7, 0, 0, 0, 0⟩).2.2.2.1 (by decide) (by decide)

theorem sliceAt_isSome {α : Type} (s : List α) (idx : Int) :
    (sliceAt s idx).isSome = true ↔ 0 ≤ idx ∧ idx < s.length := by
  unfold sliceAt
  by_cases h : 0 ≤ idx ∧ idx < s.length
  · simp only [h, and_self, if_true, iff_true]
    have : idx.toNat < s.length := by omega
    simp [this]
  · simp [h]

/-- C9 (as stated, refuted): with a new profile, `Defaults.Monitor` the smallest `int`
(so `<= 0`) and a primary monitor in the list, case (c) of the three stated cases holds, yet
the lookup `monitors[getDefaultMonitorIndex(...)]` is out of range: the index is the largest
`int`. -/
theorem selectedMonitor_wrap_counterexample :
    ¬ ((selectedMonitor [⟨1, true, 1920, 1080, 0, 0⟩]
            ⟨⟨[], [], minInt, 0, 0, 0, 0⟩⟩ ⟨[], [], 1, 0, 0, 0, 0⟩ true).isSome = true ↔
        LookupCasesAsStated [⟨1, true, 1920, 1080, 0, 0⟩]
          ⟨⟨[], [], minInt, 0, 0, 0, 0⟩⟩ ⟨[], [], 1, 0, 0, 0, 0⟩ true) := by
  decide

/-- C9 (amended): for a monitors list of length `n` (a Go slice, so `n` fits in `int`) and
stored monitor numbers that are `int` values, the index returned by
`getDefaultMonitorIndex` is within `[0, n)`, and the lookup of `makeAppSettingWindow` does
not panic, if and only if (a) `isNew` is false and `1 <= appSetting.Monitor <= n`, or
(b) `isNew` is true and `1 <= Defaults.Monitor <= n`, or (c) `isNew` is true,
`Defaults.Monitor <= 0` is not the smallest `int` and some monitor has `isPrimary`. -/
theorem selectedMonitor_isSome_iff (monitors : List Monitor) (settings : Settings)
    (appSetting : AppSetting) (isNew : Bool)
    (hlen : (monitors.length : Int) ≤ maxInt)
    (hA : IsInt appSetting.Monitor) (hD : IsInt settings.Defaults.Monitor) :
    ((selectedMonitor monitors settings appSetting isNew).isSome = true ↔
        (0 ≤ getDefaultMonitorIndex monitors settings appSetting isNew ∧
          getDefaultMonitorIndex monitors settings appSetting isNew < monitors.length)) ∧
      ((0 ≤ getDefaultMonitorIndex monitors settings appSetting isNew ∧
          getDefaultMonitorIndex monitors settings appSetting isNew < monitors.length) ↔
        ((isNew = false ∧ 1 ≤ appSetting.Monitor ∧ appSetting.Monitor ≤ monitors.length) ∨
          (isNew = true ∧ 1 ≤ settings.Defaults.Monitor ∧
            settings.Defaults.Monitor ≤ monitors.length) ∨
          (isNew = true ∧ minInt < settings.Defaults.Monitor ∧
            settings.Defaults.Monitor ≤ 0 ∧ ∃ m ∈ monitors, m.isPrimary = true))) := by
  refine ⟨sliceAt_isSome _ _, ?_⟩
  have hprim := slicesIndexFunc_range (fun m : Monitor => m.isPrimary) monitors
  have hwA : subInt appSetting.Monitor 1 =
      if appSetting.Monitor = minInt then maxInt else appSetting.Monitor - 1 := by
    unfold IsInt minInt maxInt at *
    unfold subInt wrapInt64
    split <;> omega
  have hwD : subInt settings.Defaults.Monitor 1 =
      if settings.Defaults.Monitor = minInt then maxInt else settings.Defaults.Monitor - 1 := by
    unfold IsInt minInt maxInt at *
    unfold subInt wrapInt64
    split <;> omega
  cases isNew
  · simp only [getDefaultMonitorIndex, hwA, Bool.not_false, if_true]
    unfold IsInt minInt maxInt at *
    split
    · constructor
      · intro h
        omega
      · rintro (h | h | h)
        · omega
        · exact absurd h.1 (by decide)
        · exact absurd h.1 (by decide)
    · constructor
      · intro h
        exact Or.inl ⟨trivial, by omega, by omega⟩
      · rintro (h | h | h)
        · omega
        · exact absurd h.1 (by decide)
        · exact absurd h.1 (by decide)
  · simp only [getDefaultMonitorIndex, hwD, Bool.not_true, Bool.false_eq_true, if_false]
    unfold IsInt minInt maxInt at *
    by_cases hmin : settings.Defaults.Monitor = -9223372036854775808
    · simp only [hmin, if_true]
      constructor
      · intro h
        have h1 := h.2
        simp at h1
        omega
      · rintro (h | h | h)
        · exact absurd h.1 (by decide)
        · omega
        · omega
    · simp only [hmin, if_false]
      by_cases hneg : settings.Defaults.Monitor - 1 < 0
      · simp only [hneg, if_true, hprim]
        constructor
        · intro h
          exact Or.inr (Or.inr ⟨trivial, by omega, by omega, h⟩)
        · rintro (h | h | h)
          · exact absurd h.1 (by decide)
          · omega
          · exact h.2.2.2
      · simp only [hneg, if_false]
        constructor
        · intro h
          exact Or.inr (Or.inl ⟨trivial, by omega, by omega⟩)
        · rintro (h | h | h)
          · exact absurd h.1 (by decide)
          · omega
          · omega

/-- C9 (witness): a stored monitor number `2` with two monitors is in range. -/
theorem selectedMonitor_isSome_iff_witness :
    (selectedMonitor [⟨1, true, 1920, 1080, 0, 0⟩, ⟨2, false, 1280, 1024, 1920, 0⟩]
        ⟨⟨[], [], 0, 0, 0, 0, 0⟩⟩ ⟨[], [], 2, 0, 0, 0, 0⟩ false).isSome = true :=
  ((selectedMonitor_isSome_iff
      [⟨1, true, 1920, 1080, 0, 0⟩, ⟨2, false, 1280, 1024, 1920, 0⟩]
      ⟨⟨[], [], 0, 0, 0, 0, 0⟩⟩ ⟨[], [], 2, 0, 0, 0, 0⟩ false
      (by decide) (by unfold IsInt; decide) (by unfold IsInt; decide)).1).2 (by decide)

/-! ## C5, C6: monitor enumeration -/

theorem monitorEnumProc_failed (st : EnumState) (r : MonitorReport) (h : r.infoOk = false) :
    monitorEnumProc st r = st := by
  simp [monitorEnumProc, h]

theorem monitorEnumProc_ok (st : EnumState) (r : MonitorReport) (h : r.infoOk = true) :
    ∃ m, BuiltFrom (addInt st.index 1) m r ∧
      monitorEnumProc st r = { monitors := st.monitors ++ [m], index := addInt st.index 1 } := by
  refine ⟨_, ?_, by simp only [monitorEnumProc, h, if_true]; rfl⟩
  refine ⟨rfl, rfl, rfl, ?_, rfl⟩
  simp only [resolvedGeometry]
  by_cases hc : r.ret = 0 ∨ wrapInt32 (r.dmPelsWidth : Int) = 0 ∨
      wrapInt32 (r.dmPelsHeight : Int) = 0
  · simp [hc]
  · simp [hc]

theorem foldl_monitorEnumProc_geometry (reports : List MonitorReport) (st : EnumState)
    (acc : List MonitorReport)
    (h : List.Forall₂ (fun m r => m.left = r.rcLeft ∧ m.top = r.rcTop ∧
      (m.width, m.height) = resolvedGeometry r) st.monitors acc) :
    List.Forall₂ (fun m r => m.left = r.rcLeft ∧ m.top = r.rcTop ∧
        (m.width, m.height) = resolvedGeometry r)
      (reports.foldl monitorEnumProc st).monitors
      (acc ++ reports.filter (fun r => r.infoOk)) := by
  induction reports generalizing st acc with
  | nil => simpa using h
  | cons r rs ih =>
    by_cases hr : r.infoOk = true
    · obtain ⟨m, hm, hstep⟩ := monitorEnumProc_ok st r hr
      simp only [List.foldl_cons, hstep, List.filter_cons, hr, if_true]
      have := ih { monitors := st.monitors ++ [m], index := addInt st.index 1 } (acc ++ [r])
        (List.rel_append h (List.Forall₂.cons ⟨hm.2.1, hm.2.2.1, hm.2.2.2.1⟩ List.Forall₂.nil))
      simpa using this
    · simp only [Bool.not_eq_true] at hr
      simp only [List.foldl_cons, monitorEnumProc_failed st r hr, List.filter_cons, hr]
      simpa using ih st acc h

theorem foldl_monitorEnumProc_numbers (reports : List MonitorReport) (st : EnumState)
    (hidx : st.index = st.monitors.length)
    (hnum : ∀ (i : Nat) (m : Monitor), st.monitors[i]? = some m → m.number = (i : Int) + 1)
    (hlen : ((st.monitors.length + (reports.filter (fun r => r.infoOk)).length : Nat) : Int)
      ≤ maxInt) :
    ∀ (i : Nat) (m : Monitor), (reports.foldl monitorEnumProc st).monitors[i]? = some m →
      m.number = (i : Int) + 1 := by
  induction reports generalizing st with
  | nil => simpa using hnum
  | cons r rs ih =>
    by_cases hr : r.infoOk = true
    · obtain ⟨m, hm, hstep⟩ := monitorEnumProc_ok st r hr
      simp only [List.filter_cons, hr, if_true, List.length_cons] at hlen
      have hadd : addInt st.index 1 = (st.monitors.length : Int) + 1 := by
        rw [hidx]
        unfold maxInt at hlen
        unfold addInt wrapInt64
        omega
      simp only [List.foldl_cons, hstep]
      apply ih
      · simp [hadd]
      · intro i m' hi
        by_cases hlt : i < st.monitors.length
        · rw [List.getElem?_append_left hlt] at hi
          exact hnum i m' hi
        · have hge : st.monitors.length ≤ i := Nat.le_of_not_lt hlt
          rw [List.getElem?_append_right hge] at hi
          have hi0 : i - st.monitors.length = 0 := by
            by_contra hne
            have : ([m] : List Monitor)[i - st.monitors.length]? = none := by
              apply List.getElem?_eq_none
              simp
              omega
            rw [this] at hi
            cases hi
          rw [hi0] at hi
          simp only [List.getElem?_cons_zero, Option.some.injEq] at hi
          subst hi
          rw [hm.1, hadd]
          omega
      · simp only [List.length_append, List.length_singleton]
        push_cast at hlen ⊢
        omega
    · simp only [Bool.not_eq_true] at hr
      simp only [List.filter_cons, hr] at hlen
      simp only [List.foldl_cons, monitorEnumProc_failed st r hr]
      exact ih st hidx hnum (by simpa using hlen)

/-- C5: the monitors returned by `getMonitors` correspond one to one, in order, to the
successfully queried monitors, and each has the resolved geometry of the policy: the
rectangle span `(right - left, bottom - top)` (in `int32` arithmetic) when the mode query
failed (`ret = 0`) or a mode dimension converted to `int32` is zero, and the converted mode
dimensions otherwise; in particular a mode width of zero gives the width `right - left`. -/
theorem getMonitors_geometry (reports : List MonitorReport) :
    List.Forall₂ ResolvedPerPolicy (getMonitors reports)
      (reports.filter (fun r => r.infoOk)) := by
  have h := foldl_monitorEnumProc_geometry reports { monitors := [], index := 0 } []
    List.Forall₂.nil
  simp only [List.nil_append] at h
  unfold getMonitors
  refine List.Forall₂.imp ?_ h
  intro m r hmr
  have hg := hmr.2.2
  refine ⟨hg, ?_, ?_, ?_⟩
  · intro hc
    simp only [resolvedGeometry, hc, if_true, Prod.mk.injEq] at hg
    refine ⟨hg.1, hg.2, ?_, ?_⟩
    · intro hfit
      rw [hg.1]
      exact wrapInt32_of_isInt32 _ hfit
    · intro hfit
      rw [hg.2]
      exact wrapInt32_of_isInt32 _ hfit
  · intro hc
    simp only [resolvedGeometry, hc, if_false, Prod.mk.injEq] at hg
    exact hg
  · intro hw
    have hc : r.ret = 0 ∨ wrapInt32 (r.dmPelsWidth : Int) = 0 ∨
        wrapInt32 (r.dmPelsHeight : Int) = 0 := by
      right
      left
      rw [hw]
      decide
    simp only [resolvedGeometry, hc, if_true, Prod.mk.injEq] at hg
    exact hg.1

/-- C5 (witness): a failed info query is skipped; a mode width of zero falls back to the
rectangle span, a valid mode is used as reported. -/
theorem getMonitors_geometry_witness :
    List.Forall₂ ResolvedPerPolicy
        (getMonitors
          [⟨true, 0, 0, 1920, 1080, 1, 1, 0, 1080⟩, ⟨false, 0, 0, 0, 0, 0, 0, 0, 0⟩,
           ⟨true, 1920, 0, 3200, 1024, 0, 1, 2560, 1440⟩])
        ([⟨true, 0, 0, 1920, 1080, 1, 1, 0, 1080⟩, ⟨false, 0, 0, 0, 0, 0, 0, 0, 0⟩,
          ⟨true, 1920, 0, 3200, 1024, 0, 1, 2560, 1440⟩].filter (fun r => r.infoOk)) ∧
      (getMonitors
          [⟨true, 0, 0, 1920, 1080, 1, 1, 0, 1080⟩, ⟨false, 0, 0, 0, 0, 0, 0, 0, 0⟩,
           ⟨true, 1920, 0, 3200, 1024, 0, 1, 2560, 1440⟩]).map
        (fun m => (m.width, m.height)) = [(1920, 1080), (2560, 1440)] :=
  ⟨getMonitors_geometry
      [⟨true, 0, 0, 1920, 1080, 1, 1, 0, 1080⟩, ⟨false, 0, 0, 0, 0, 0, 0, 0, 0⟩,
       ⟨true, 1920, 0, 3200, 1024, 0, 1, 2560, 1440⟩],
    by decide⟩

/-- C6: `getMonitors` returns one monitor per successfully queried monitor, in enumeration
order, and omits the monitors whose info query failed; each returned monitor has the `left`
and `top` of its rectangle, and the monitor at position `i` (from `0`) has number `i + 1`,
so the numbers start at `1` and increase by one without gaps. The number of returned
monitors fits in `int`, as the length of a Go slice does. -/
theorem getMonitors_numbering (reports : List MonitorReport)
    (hlen : (((reports.filter (fun r => r.infoOk)).length : Nat) : Int) ≤ maxInt) :
    List.Forall₂ (fun m r => m.left = r.rcLeft ∧ m.top = r.rcTop)
        (getMonitors reports) (reports.filter (fun r => r.infoOk)) ∧
      (getMonitors reports).length = (reports.filter (fun r => r.infoOk)).length ∧
      ∀ (i : Nat) (m : Monitor), (getMonitors reports)[i]? = some m →
        m.number = (i : Int) + 1 := by
  have h := foldl_monitorEnumProc_geometry reports { monitors := [], index := 0 } []
    List.Forall₂.nil
  simp only [List.nil_append] at h
  refine ⟨List.Forall₂.imp (fun m r hmr => ⟨hmr.1, hmr.2.1⟩) h, h.length_eq, ?_⟩
  apply foldl_monitorEnumProc_numbers reports { monitors := [], index := 0 }
  · simp
  · intro i m hi
    simp at hi
  · simpa using hlen

/-- C6 (witness): of three reported monitors the second cannot be queried; the two returned
monitors are numbered `1` and `2`. -/
theorem getMonitors_numbering_witness :
    (getMonitors
        [⟨true, 0, 0, 1920, 1080, 1, 1, 1920, 1080⟩, ⟨false, 0, 0, 0, 0, 0, 0, 0, 0⟩,
         ⟨true, 1920, 0, 3200, 1024, 0, 1, 1280, 1024⟩]).length = 2 :=
  (getMonitors_numbering
    [⟨true, 0, 0, 1920, 1080, 1, 1, 1920, 1080⟩, ⟨false, 0, 0, 0, 0, 0, 0, 0, 0⟩,
     ⟨true, 1920, 0, 3200, 1024, 0, 1, 1280, 1024⟩] (by decide)).2.1

/-! ## String comparison -/

theorem stringsCompare_self (a : GoString) : stringsCompare a a = 0 := by
  induction a with
  | nil => simp [stringsCompare]
  | cons x xs ih => simp [stringsCompare, ih]

theorem stringsCompare_eq_zero (a b : GoString) (h : stringsCompare a b = 0) : a = b := by
  induction a generalizing b with
  | nil =>
    cases b with
    | nil => rfl
    | cons y ys => simp [stringsCompare] at h
  | cons x xs ih =>
    cases b with
    | nil => simp [stringsCompare] at h
    | cons y ys =>
      simp only [stringsCompare] at h
      split_ifs at h with h1 h2
      all_goals first
        | (have hxy : x = y := by omega
           rw [hxy, ih ys h])
        | omega

theorem stringsCompare_neg (a b : GoString) : stringsCompare a b = - stringsCompare b a := by
  induction a generalizing b with
  | nil =>
    cases b with
    | nil => simp [stringsCompare]
    | cons y ys => simp [stringsCompare]
  | cons x xs ih =>
    cases b with
    | nil => simp [stringsCompare]
    | cons y ys =>
      simp only [stringsCompare]
      split_ifs <;> first | omega | rfl | exact ih ys

theorem stringsCompare_lt_trans (a b c : GoString) (h1 : stringsCompare a b < 0)
    (h2 : stringsCompare b c < 0) : stringsCompare a c < 0 := by
  induction a generalizing b c with
  | nil =>
    cases b with
    | nil => simp [stringsCompare] at h1
    | cons y ys =>
      cases c with
      | nil => simp [stringsCompare] at h2
      | cons z zs => simp [stringsCompare]
  | cons x xs ih =>
    cases b with
    | nil => simp [stringsCompare] at h1
    | cons y ys =>
      cases c with
      | nil => simp [stringsCompare] at h2
      | cons z zs =>
        simp only [stringsCompare] at h1 h2 ⊢
        split_ifs at h1 h2 ⊢ <;> first | omega | exact ih ys zs h1 h2

theorem windowCmp_strictWeak (toLower : GoString → GoString) :
    IsStrictWeakOrdering (windowCmp toLower) := by
  refine ⟨?_, ?_, ?_⟩
  · intro a
    simp [windowCmp, stringsCompare_self]
  · intro a b c h1 h2
    exact stringsCompare_lt_trans _ _ _ h1 h2
  · intro a b c hab hbc
    have e1 : toLower a.String = toLower b.String := by
      apply stringsCompare_eq_zero
      have := stringsCompare_neg (toLower a.String) (toLower b.String)
      simp only [windowCmp] at hab
      omega
    have e2 : toLower b.String = toLower c.String := by
      apply stringsCompare_eq_zero
      have := stringsCompare_neg (toLower b.String) (toLower c.String)
      simp only [windowCmp] at hbc
      omega
    simp [windowCmp, e1, e2, stringsCompare_self]


/-! ## Sorting: order facts -/

theorem swo_irrefl {α : Type} {cmp : α → α → Int} (h : IsStrictWeakOrdering cmp) (a : α) :
    ¬ cmp a a < 0 := h.1 a

theorem swo_trans {α : Type} {cmp : α → α → Int} (h : IsStrictWeakOrdering cmp) {a b c : α}
    (hab : cmp a b < 0) (hbc : cmp b c < 0) : cmp a c < 0 := h.2.1 a b c hab hbc

theorem swo_asymm {α : Type} {cmp : α → α → Int} (h : IsStrictWeakOrdering cmp) {a b : α}
    (hab : cmp a b < 0) : ¬ cmp b a < 0 :=
  fun hba => h.1 a (h.2.1 a b a hab hba)

/-- From `a ≤ b` and `b ≤ c` follows `a ≤ c`, where `x ≤ y` is `¬ cmp y x < 0`. -/
theorem swo_le_trans {α : Type} {cmp : α → α → Int} (h : IsStrictWeakOrdering cmp)
    {a b c : α} (hab : ¬ cmp b a < 0) (hbc : ¬ cmp c b < 0) : ¬ cmp c a < 0 := by
  intro hca
  have h1 : ¬ cmp a b < 0 := fun hlt => hbc (swo_trans h hca hlt)
  have h2 : ¬ cmp b c < 0 := fun hlt => hab (swo_trans h hlt hca)
  exact (h.2.2 a b c ⟨h1, hab⟩ ⟨h2, hbc⟩).2 hca

/-! ## Sorting: the two primitives -/

theorem gv_eq_of_getElem? {α : Type} [Inhabited α] (d : List α) (i : Nat) (x : α)
    (h : d[i]? = some x) : gv d i = x := by
  simp [gv, List.getD_eq_getElem?_getD, h]

theorem getElem?_eq_gv {α : Type} [Inhabited α] (d : List α) (i : Nat) (h : i < d.length) :
    d[i]? = some (gv d i) := by
  simp [gv, List.getD_eq_getElem?_getD, List.getElem?_eq_getElem h]

theorem swapAt_length {α : Type} (d : List α) (i j : Nat) :
    (swapAt d i j).length = d.length := by
  unfold swapAt
  split <;> simp

theorem swapAt_perm {α : Type} (d : List α) (i j : Nat) : (swapAt d i j).Perm d := by
  induction d generalizing i j with
  | nil => simp [swapAt]
  | cons x xs ih =>
    cases i with
    | zero =>
      cases j with
      | zero => simp [swapAt]
      | succ j =>
        simp only [swapAt, List.getElem?_cons_zero, List.getElem?_cons_succ]
        cases hj : xs[j]? with
        | none => simp
        | some y =>
          simp only [List.set_cons_zero, List.set_cons_succ]
          obtain ⟨hlt, hy⟩ := List.getElem?_eq_some.mp hj
          have hset : xs.set j x = xs.take j ++ x :: xs.drop (j + 1) := by
            rw [List.set_eq_take_append_cons_drop, if_pos hlt]
          have hxs : xs = xs.take j ++ y :: xs.drop (j + 1) := by
            conv_lhs => rw [← List.take_append_drop j xs]
            rw [List.drop_eq_getElem_cons hlt, hy]
          rw [hset]
          conv_rhs => rw [hxs]
          have h1 : (y :: (List.take j xs ++ x :: List.drop (j + 1) xs)).Perm
              (y :: x :: (List.take j xs ++ List.drop (j + 1) xs)) :=
            List.Perm.cons y List.perm_middle
          have h2 : (x :: (List.take j xs ++ y :: List.drop (j + 1) xs)).Perm
              (x :: y :: (List.take j xs ++ List.drop (j + 1) xs)) :=
            List.Perm.cons x List.perm_middle
          exact h1.trans ((List.Perm.swap x y _).trans h2.symm)
    | succ i =>
      cases j with
      | zero =>
        simp only [swapAt, List.getElem?_cons_zero, List.getElem?_cons_succ]
        cases hi : xs[i]? with
        | none => simp
        | some y =>
          simp only [List.set_cons_zero, List.set_cons_succ]
          obtain ⟨hlt, hy⟩ := List.getElem?_eq_some.mp hi
          have hset : xs.set i x = xs.take i ++ x :: xs.drop (i + 1) := by
            rw [List.set_eq_take_append_cons_drop, if_pos hlt]
          have hxs : xs = xs.take i ++ y :: xs.drop (i + 1) := by
            conv_lhs => rw [← List.take_append_drop i xs]
            rw [List.drop_eq_getElem_cons hlt, hy]
          rw [hset]
          conv_rhs => rw [hxs]
          have h1 : (y :: (List.take i xs ++ x :: List.drop (i + 1) xs)).Perm
              (y :: x :: (List.take i xs ++ List.drop (i + 1) xs)) :=
            List.Perm.cons y List.perm_middle
          have h2 : (x :: (List.take i xs ++ y :: List.drop (i + 1) xs)).Perm
              (x :: y :: (List.take i xs ++ List.drop (i + 1) xs)) :=
            List.Perm.cons x List.perm_middle
          exact h1.trans ((List.Perm.swap x y _).trans h2.symm)
      | succ j =>
        have hc : swapAt (x :: xs) (i + 1) (j + 1) = x :: swapAt xs i j := by
          simp only [swapAt, List.getElem?_cons_succ]
          cases xs[i]? with
          | none => rfl
          | some u =>
            cases xs[j]? with
            | none => rfl
            | some v => simp [List.set_cons_succ]
        rw [hc]
        exact List.Perm.cons x (ih i j)

theorem gv_swapAt {α : Type} [Inhabited α] (d : List α) (i j k : Nat) (hi : i < d.length)
    (hj : j < d.length) :
    gv (swapAt d i j) k = if k = j then gv d i else if k = i then gv d j else gv d k := by
  have e1 := getElem?_eq_gv d i hi
  have e2 := getElem?_eq_gv d j hj
  simp only [swapAt, e1, e2]
  simp only [gv, List.getD_eq_getElem?_getD, List.getElem?_set, List.length_set]
  by_cases hkj : k = j
  · subst hkj
    simp [hj]
  · by_cases hki : k = i
    · subst hki
      simp [hi, hkj, Ne.symm hkj]
    · simp [hkj, hki, Ne.symm hkj, Ne.symm hki]

theorem lessAt_eq {α : Type} [Inhabited α] (cmp : α → α → Int) (d : List α) (i j : Nat)
    (hi : i < d.length) (hj : j < d.length) :
    lessAt cmp d i j = decide (cmp (gv d i) (gv d j) < 0) := by
  simp [lessAt, getElem?_eq_gv d i hi, getElem?_eq_gv d j hj]

/-! ## Sorting: ranges -/

theorem Within.refl {α : Type} [Inhabited α] (a b : Nat) (d : List α) : Within a b d d :=
  ⟨rfl, fun _ _ => rfl, fun i hi hb => ⟨i, hi, hb, rfl⟩⟩

theorem Within.trans {α : Type} [Inhabited α] {a b : Nat} {d1 d2 d3 : List α}
    (h12 : Within a b d1 d2) (h23 : Within a b d2 d3) : Within a b d1 d3 := by
  refine ⟨h23.1.trans h12.1, ?_, ?_⟩
  · intro k hk
    rw [h23.2.1 k hk, h12.2.1 k hk]
  · intro i hi hb
    obtain ⟨j, hj1, hj2, hj3⟩ := h23.2.2 i hi hb
    obtain ⟨l, hl1, hl2, hl3⟩ := h12.2.2 j hj1 hj2
    exact ⟨l, hl1, hl2, hj3.trans hl3⟩

theorem Within.widen {α : Type} [Inhabited α] {a b a' b' : Nat} {d d' : List α}
    (h : Within a' b' d d') (ha : a ≤ a') (hb : b' ≤ b) : Within a b d d' := by
  refine ⟨h.1, ?_, ?_⟩
  · intro k hk
    apply h.2.1
    omega
  · intro i hi hib
    by_cases hin : a' ≤ i ∧ i < b'
    · obtain ⟨j, hj1, hj2, hj3⟩ := h.2.2 i hin.1 hin.2
      exact ⟨j, by omega, by omega, hj3⟩
    · exact ⟨i, hi, hib, h.2.1 i (by omega)⟩

theorem Within.swapAt {α : Type} [Inhabited α] (a b : Nat) (d : List α) (i j : Nat)
    (hai : a ≤ i) (hib : i < b) (haj : a ≤ j) (hjb : j < b) (hb : b ≤ d.length) :
    Within a b d (swapAt d i j) := by
  have hi : i < d.length := by omega
  have hj : j < d.length := by omega
  refine ⟨swapAt_length d i j, ?_, ?_⟩
  · intro k hk
    rw [gv_swapAt d i j k hi hj]
    have h1 : ¬ k = j := by omega
    have h2 : ¬ k = i := by omega
    simp [h1, h2]
  · intro k hk1 hk2
    rw [gv_swapAt d i j k hi hj]
    by_cases h1 : k = j
    · exact ⟨i, hai, hib, by simp [h1]⟩
    · by_cases h2 : k = i
      · subst h2
        exact ⟨j, haj, hjb, by simp [h1]⟩
      · exact ⟨k, hk1, hk2, by simp [h1, h2]⟩

/-- A property of all elements of the range survives a change within the range. -/
theorem Within.forall_range {α : Type} [Inhabited α] {a b : Nat} {d d' : List α}
    (h : Within a b d d') (Q : α → Prop) (hQ : ∀ j, a ≤ j → j < b → Q (gv d j)) :
    ∀ i, a ≤ i → i < b → Q (gv d' i) := by
  intro i hi hb
  obtain ⟨j, hj1, hj2, hj3⟩ := h.2.2 i hi hb
  rw [hj3]
  exact hQ j hj1 hj2

/-! ## Sorting: the passes of `pdqsortCmpFunc` by name -/

theorem pdqsortCmpFunc_succ {α : Type} (next : Nat → Nat) (cmp : α → α → Int) (steps : Nat)
    (d : List α) (a b limit : Nat) (wb wp : Bool) :
    pdqsortCmpFunc next cmp (steps + 1) d a b limit wb wp =
      if b - a ≤ 12 then insertionSortCmpFunc cmp d a b
      else if limit = 0 then heapSortCmpFunc cmp d a b
      else if pdqDone next cmp d a b wb wp = true then pdqReady next cmp d a b wb wp
      else if a > 0 ∧ lessAt cmp (pdqReady next cmp d a b wb wp) (a - 1)
          (pdqPivotAt next cmp d a b wb) = false then
        pdqsortCmpFunc next cmp steps
          (partitionEqualCmpFunc cmp (pdqReady next cmp d a b wb wp) a b
            (pdqPivotAt next cmp d a b wb)).1
          (partitionEqualCmpFunc cmp (pdqReady next cmp d a b wb wp) a b
            (pdqPivotAt next cmp d a b wb)).2
          b (pdqLimit limit wb) wb wp
      else
        pdqSplit (pdqsortCmpFunc next cmp steps)
          (partitionCmpFunc cmp (pdqReady next cmp d a b wb wp) a b
            (pdqPivotAt next cmp d a b wb))
          a b (pdqLimit limit wb) := by
  rw [pdqsortCmpFunc]
  simp only [pdqSplit, pdqDone, pdqReady, pdqPivotAt, pdqInserted, pdqBroken, pdqLimit,
    pdqPivot, pdqHint, pdqReversed, decide_eq_true_eq]

/-! ## Sorting: every step permutes the data -/

theorem insertionInner_perm {α : Type} (cmp : α → α → Int) (a j : Nat) (d : List α) :
    (insertionInner cmp a j d).Perm d := by
  induction j generalizing d with
  | zero => simp [insertionInner]
  | succ j ih =>
    simp only [insertionInner]
    split
    · exact (ih _).trans (swapAt_perm d (j + 1) j)
    · exact List.Perm.refl d

theorem foldl_perm {α β : Type} (f : List α → β → List α) (hf : ∀ d x, (f d x).Perm d)
    (l : List β) (d : List α) : (l.foldl f d).Perm d := by
  induction l generalizing d with
  | nil => exact List.Perm.refl d
  | cons x xs ih =>
    simp only [List.foldl_cons]
    exact (ih _).trans (hf d x)

theorem insertionSortCmpFunc_perm {α : Type} (cmp : α → α → Int) (d : List α) (a b : Nat) :
    (insertionSortCmpFunc cmp d a b).Perm d :=
  foldl_perm _ (fun d i => insertionInner_perm cmp a i d) _ d

theorem siftDownLoop_perm {α : Type} (cmp : α → α → Int) (hi first steps root : Nat)
    (d : List α) : (siftDownLoop cmp hi first steps root d).Perm d := by
  induction steps generalizing root d with
  | zero => simp [siftDownLoop]
  | succ n ih =>
    simp only [siftDownLoop]
    split_ifs <;> first
      | exact List.Perm.refl d
      | exact (ih _ _).trans (swapAt_perm _ _ _)

theorem siftDownCmpFunc_perm {α : Type} (cmp : α → α → Int) (d : List α)
    (lo hi first : Nat) : (siftDownCmpFunc cmp d lo hi first).Perm d :=
  siftDownLoop_perm cmp hi first hi lo d

theorem heapSortCmpFunc_perm {α : Type} (cmp : α → α → Int) (d : List α) (a b : Nat) :
    (heapSortCmpFunc cmp d a b).Perm d := by
  unfold heapSortCmpFunc
  refine (foldl_perm _ ?_ _ _).trans (foldl_perm _ ?_ _ _)
  · intro d i
    exact (siftDownCmpFunc_perm cmp _ _ _ _).trans (swapAt_perm _ _ _)
  · intro d i
    exact siftDownCmpFunc_perm cmp _ _ _ _

theorem breakPatternsLoop_perm {α : Type} (next : Nat → Nat) (a length modulus idx : Nat)
    (count i random : Nat) (d : List α) :
    (breakPatternsLoop next a length modulus idx count i random d).Perm d := by
  induction count generalizing i random d with
  | zero => simp [breakPatternsLoop]
  | succ n ih =>
    simp only [breakPatternsLoop]
    exact (ih _ _ _).trans (swapAt_perm _ _ _)

theorem breakPatternsCmpFunc_perm {α : Type} (next : Nat → Nat) (d : List α) (a b : Nat) :
    (breakPatternsCmpFunc next d a b).Perm d := by
  simp only [breakPatternsCmpFunc]
  split
  · exact breakPatternsLoop_perm _ _ _ _ _ _ _ _ _
  · exact List.Perm.refl d

theorem reverseRangeLoop_perm {α : Type} (steps i j : Nat) (d : List α) :
    (reverseRangeLoop steps i j d).Perm d := by
  induction steps generalizing i j d with
  | zero => simp [reverseRangeLoop]
  | succ n ih =>
    simp only [reverseRangeLoop]
    split
    · exact (ih _ _ _).trans (swapAt_perm _ _ _)
    · exact List.Perm.refl d

theorem reverseRangeCmpFunc_perm {α : Type} (d : List α) (a b : Nat) :
    (reverseRangeCmpFunc d a b).Perm d :=
  reverseRangeLoop_perm _ _ _ d

theorem partitionLoop_perm {α : Type} (cmp : α → α → Int) (a steps : Nat) (d : List α)
    (i j : Nat) : (partitionLoop cmp a steps d i j).1.Perm d := by
  induction steps generalizing d i j with
  | zero => simp [partitionLoop]
  | succ n ih =>
    simp only [partitionLoop]
    split
    · exact List.Perm.refl d
    · exact (ih _ _ _).trans (swapAt_perm _ _ _)

theorem partitionCmpFunc_perm {α : Type} (cmp : α → α → Int) (d : List α) (a b pivot : Nat) :
    (partitionCmpFunc cmp d a b pivot).1.Perm d := by
  simp only [partitionCmpFunc]
  split
  · exact (swapAt_perm _ _ _).trans (swapAt_perm _ _ _)
  · exact (swapAt_perm _ _ _).trans
      ((partitionLoop_perm cmp a _ _ _ _).trans
        ((swapAt_perm _ _ _).trans (swapAt_perm _ _ _)))

theorem partitionEqualLoop_perm {α : Type} (cmp : α → α → Int) (a steps : Nat) (d : List α)
    (i j : Nat) : (partitionEqualLoop cmp a steps d i j).1.Perm d := by
  induction steps generalizing d i j with
  | zero => simp [partitionEqualLoop]
  | succ n ih =>
    simp only [partitionEqualLoop]
    split
    · exact List.Perm.refl d
    · exact (ih _ _ _).trans (swapAt_perm _ _ _)

theorem partitionEqualCmpFunc_perm {α : Type} (cmp : α → α → Int) (d : List α)
    (a b pivot : Nat) : (partitionEqualCmpFunc cmp d a b pivot).1.Perm d := by
  simp only [partitionEqualCmpFunc]
  exact (partitionEqualLoop_perm cmp a _ _ _ _).trans (swapAt_perm _ _ _)

theorem shiftSmallerLeft_perm {α : Type} (cmp : α → α → Int) (j : Nat) (d : List α) :
    (shiftSmallerLeft cmp j d).Perm d := by
  induction j generalizing d with
  | zero => simp [shiftSmallerLeft]
  | succ j ih =>
    simp only [shiftSmallerLeft]
    split
    · exact List.Perm.refl d
    · exact (ih _).trans (swapAt_perm _ _ _)

theorem shiftGreaterRight_perm {α : Type} (cmp : α → α → Int) (b steps j : Nat)
    (d : List α) : (shiftGreaterRight cmp b steps j d).Perm d := by
  induction steps generalizing j d with
  | zero => simp [shiftGreaterRight]
  | succ n ih =>
    simp only [shiftGreaterRight]
    split
    · split
      · exact List.Perm.refl d
      · exact (ih _ _).trans (swapAt_perm _ _ _)
    · exact List.Perm.refl d

theorem partialInsertionLoop_perm {α : Type} (cmp : α → α → Int) (a b count i : Nat)
    (d : List α) : (partialInsertionLoop cmp a b count i d).1.Perm d := by
  induction count generalizing i d with
  | zero => simp [partialInsertionLoop]
  | succ n ih =>
    simp only [partialInsertionLoop]
    split
    · exact List.Perm.refl d
    · split
      · exact List.Perm.refl d
      · refine (ih _ _).trans ?_
        have h1 : (swapAt d (scanSortedUp cmp d b (b - i) i)
            (scanSortedUp cmp d b (b - i) i - 1)).Perm d := swapAt_perm _ _ _
        have h2 : ∀ (c : Prop) [Decidable c] (k : Nat) (e : List α),
            (if c then shiftSmallerLeft cmp k e else e).Perm e := by
          intro c _ k e
          split
          · exact shiftSmallerLeft_perm cmp k e
          · exact List.Perm.refl e
        have h3 : ∀ (c : Prop) [Decidable c] (s k : Nat) (e : List α),
            (if c then shiftGreaterRight cmp b s k e else e).Perm e := by
          intro c _ s k e
          split
          · exact shiftGreaterRight_perm cmp b s k e
          · exact List.Perm.refl e
        exact (h3 _ _ _ _).trans ((h2 _ _ _).trans h1)

theorem partialInsertionSortCmpFunc_perm {α : Type} (cmp : α → α → Int) (d : List α)
    (a b : Nat) : (partialInsertionSortCmpFunc cmp d a b).1.Perm d :=
  partialInsertionLoop_perm cmp a b 5 (a + 1) d

theorem pdqBroken_perm {α : Type} (next : Nat → Nat) (d : List α) (a b : Nat) (wb : Bool) :
    (pdqBroken next d a b wb).Perm d := by
  unfold pdqBroken
  split
  · exact List.Perm.refl d
  · exact breakPatternsCmpFunc_perm next d a b

theorem pdqReversed_perm {α : Type} (cmp : α → α → Int) (d : List α) (a b : Nat) :
    (pdqReversed cmp d a b).Perm d := by
  unfold pdqReversed
  split
  · exact reverseRangeCmpFunc_perm d a b
  · exact List.Perm.refl d

theorem pdqInserted_perm {α : Type} (cmp : α → α → Int) (d : List α) (a b : Nat)
    (wb wp : Bool) : (pdqInserted cmp d a b wb wp).1.Perm d := by
  unfold pdqInserted
  split
  · exact (partialInsertionSortCmpFunc_perm cmp _ a b).trans (pdqReversed_perm cmp d a b)
  · exact pdqReversed_perm cmp d a b

theorem pdqReady_perm {α : Type} (next : Nat → Nat) (cmp : α → α → Int) (d : List α)
    (a b : Nat) (wb wp : Bool) : (pdqReady next cmp d a b wb wp).Perm d :=
  (pdqInserted_perm cmp _ a b wb wp).trans (pdqBroken_perm next d a b wb)

theorem pdqSplit_perm {α : Type}
    (recur : List α → Nat → Nat → Nat → Bool → Bool → List α)
    (hrec : ∀ d a b limit wb wp, (recur d a b limit wb wp).Perm d)
    (q : List α × Nat × Bool) (a b limit : Nat) :
    (pdqSplit recur q a b limit).Perm q.1 := by
  unfold pdqSplit
  split
  · exact (hrec _ _ _ _ _ _).trans (hrec _ _ _ _ _ _)
  · exact (hrec _ _ _ _ _ _).trans (hrec _ _ _ _ _ _)

theorem pdqsortCmpFunc_perm {α : Type} (next : Nat → Nat) (cmp : α → α → Int) (steps : Nat)
    (d : List α) (a b limit : Nat) (wb wp : Bool) :
    (pdqsortCmpFunc next cmp steps d a b limit wb wp).Perm d := by
  induction steps generalizing d a b limit wb wp with
  | zero => simp [pdqsortCmpFunc]
  | succ n ih =>
    rw [pdqsortCmpFunc_succ]
    split
    · exact insertionSortCmpFunc_perm cmp d a b
    · split
      · exact heapSortCmpFunc_perm cmp d a b
      · split
        · exact pdqReady_perm next cmp d a b wb wp
        · split
          · exact (ih _ _ _ _ _ _).trans
              ((partitionEqualCmpFunc_perm cmp _ a b _).trans
                (pdqReady_perm next cmp d a b wb wp))
          · exact (pdqSplit_perm _ ih _ a b _).trans
              ((partitionCmpFunc_perm cmp _ a b _).trans
                (pdqReady_perm next cmp d a b wb wp))

theorem slicesSortFunc_perm {α : Type} (next : Nat → Nat) (cmp : α → α → Int) (x : List α) :
    (slicesSortFunc next cmp x).Perm x :=
  pdqsortCmpFunc_perm next cmp _ x _ _ _ _ _

/-! ## Sorting: insertion sort -/

/-- Neighbours in order give the whole range in order. -/
theorem sortedOn_of_adjacent {α : Type} [Inhabited α] {cmp : α → α → Int}
    (h : IsStrictWeakOrdering cmp) (d : List α) (a b : Nat)
    (hadj : ∀ k, a ≤ k → k + 1 < b → ¬ cmp (gv d (k + 1)) (gv d k) < 0) :
    SortedOn cmp d a b := by
  intro i j hai hij hjb
  obtain ⟨n, rfl⟩ : ∃ n, j = i + 1 + n := ⟨j - (i + 1), by omega⟩
  induction n with
  | zero => exact hadj i hai hjb
  | succ n ih =>
    have h1 := ih (by omega) (by omega)
    have h2 := hadj (i + 1 + n) (by omega) (by omega)
    exact swo_le_trans h h1 h2

theorem insertionInner_spec {α : Type} [Inhabited α] {cmp : α → α → Int}
    (h : IsStrictWeakOrdering cmp) (a i j : Nat) (d : List α)
    (haj : a ≤ j) (hji : j ≤ i) (hi : i < d.length)
    (h1 : ∀ k, a ≤ k → k < i → k + 1 ≠ j → ¬ cmp (gv d (k + 1)) (gv d k) < 0)
    (h2 : a < j → j < i → ¬ cmp (gv d (j + 1)) (gv d (j - 1)) < 0) :
    Within a (i + 1) d (insertionInner cmp a j d) ∧
      ∀ k, a ≤ k → k < i → ¬ cmp (gv (insertionInner cmp a j d) (k + 1))
        (gv (insertionInner cmp a j d) k) < 0 := by
  induction j generalizing d with
  | zero =>
    simp only [insertionInner]
    refine ⟨Within.refl _ _ _, ?_⟩
    intro k hk1 hk2
    exact h1 k hk1 hk2 (by omega)
  | succ j ih =>
    simp only [insertionInner]
    have hj1 : j + 1 < d.length := by omega
    have hj0 : j < d.length := by omega
    rw [lessAt_eq cmp d (j + 1) j hj1 hj0]
    by_cases hc : a < j + 1 ∧ decide (cmp (gv d (j + 1)) (gv d j) < 0) = true
    · rw [if_pos hc]
      have hlt : cmp (gv d (j + 1)) (gv d j) < 0 := by simpa using hc.2
      have hw : Within a (i + 1) d (swapAt d (j + 1) j) :=
        Within.swapAt a (i + 1) d (j + 1) j (by omega) (by omega) (by omega) (by omega)
          (by omega)
      have hg : ∀ k, gv (swapAt d (j + 1) j) k =
          if k = j then gv d (j + 1) else if k = j + 1 then gv d j else gv d k :=
        fun k => gv_swapAt d (j + 1) j k hj1 hj0
      have := ih (swapAt d (j + 1) j) (by omega) (by omega)
        (by rw [swapAt_length]; exact hi)
        (by
          intro k hk1 hk2 hk3
          rw [hg, hg]
          by_cases e1 : k = j
          · subst e1
            simp only [if_true, add_right_eq_self, one_ne_zero, if_false]
            exact swo_asymm h hlt
          · by_cases e2 : k = j + 1
            · subst e2
              have e3 : ¬ j + 1 + 1 = j := by omega
              have e4 : ¬ j + 1 + 1 = j + 1 := by omega
              have e5 : ¬ j + 1 = j := by omega
              simp only [e3, e4, e5, if_false, if_true]
              have := h2 (by omega) (by omega)
              simpa using this
            · have e3 : ¬ k + 1 = j := by omega
              have e4 : ¬ k + 1 = j + 1 := by omega
              simp only [e1, e2, e3, e4, if_false]
              exact h1 k hk1 hk2 (by omega))
        (by
          intro hh1 hh2
          rw [hg, hg]
          have e1 : ¬ j - 1 = j := by omega
          have e2 : ¬ j - 1 = j + 1 := by omega
          have e3 : ¬ j + 1 = j := by omega
          simp only [e1, e2, e3, if_false, if_true]
          have := h1 (j - 1) (by omega) (by omega) (by omega)
          have e4 : j - 1 + 1 = j := by omega
          rw [e4] at this
          exact this)
      exact ⟨hw.trans (this.1), this.2⟩
    · rw [if_neg hc]
      refine ⟨Within.refl _ _ _, ?_⟩
      intro k hk1 hk2
      by_cases e : k + 1 = j + 1
      · have e' : k = j := by omega
        subst e'
        have : ¬ cmp (gv d (k + 1)) (gv d k) < 0 := by
          intro hlt
          exact hc ⟨by omega, by simpa using hlt⟩
        exact this
      · exact h1 k hk1 hk2 e

theorem insertionSortCmpFunc_spec {α : Type} [Inhabited α] {cmp : α → α → Int}
    (h : IsStrictWeakOrdering cmp) (d : List α) (a b : Nat) (hab : a ≤ b)
    (hb : b ≤ d.length) :
    Within a b d (insertionSortCmpFunc cmp d a b) ∧
      SortedOn cmp (insertionSortCmpFunc cmp d a b) a b := by
  unfold insertionSortCmpFunc
  have key : ∀ (n : Nat) (i0 : Nat) (d0 : List α), a + 1 ≤ i0 → i0 + n ≤ max b (a + 1) →
      i0 + n ≤ max d0.length (a + 1) → d0.length = d.length →
      (∀ k, a ≤ k → k + 1 < i0 → ¬ cmp (gv d0 (k + 1)) (gv d0 k) < 0) →
      Within a (i0 + n) d0
          ((List.range' i0 n).foldl (fun d i => insertionInner cmp a i d) d0) ∧
        ∀ k, a ≤ k → k + 1 < i0 + n →
          ¬ cmp (gv ((List.range' i0 n).foldl (fun d i => insertionInner cmp a i d) d0)
              (k + 1))
            (gv ((List.range' i0 n).foldl (fun d i => insertionInner cmp a i d) d0) k) <
            0 := by
    intro n
    induction n with
    | zero =>
      intro i0 d0 _ _ _ _ hs
      simp only [List.range'_zero, List.foldl_nil, Nat.add_zero]
      exact ⟨Within.refl _ _ _, hs⟩
    | succ n ih =>
      intro i0 d0 hi0 hn hlen0 hlen hs
      simp only [List.range'_succ, List.foldl_cons]
      have hi0len : i0 < d0.length := by omega
      have hstep := insertionInner_spec h a i0 i0 d0 (by omega) (le_refl _) hi0len
        (fun k hk1 hk2 hk3 => hs k hk1 (by omega))
        (fun _ hh => absurd hh (lt_irrefl _))
      have hl1 : (insertionInner cmp a i0 d0).length = d0.length := hstep.1.1
      have := ih (i0 + 1) (insertionInner cmp a i0 d0) (by omega) (by omega)
        (by rw [hl1]; omega) (by rw [hl1]; exact hlen)
        (fun k hk1 hk2 => hstep.2 k hk1 (by omega))
      have e : i0 + 1 + n = i0 + (n + 1) := by omega
      rw [e] at this
      exact ⟨(hstep.1.widen (le_refl _) (by omega)).trans this.1, this.2⟩
  by_cases hlt : a + 1 ≤ b
  · have := key (b - (a + 1)) (a + 1) d (le_refl _) (by omega) (by omega) rfl
      (fun k hk1 hk2 => by omega)
    have e : a + 1 + (b - (a + 1)) = b := by omega
    rw [e] at this
    exact ⟨this.1, sortedOn_of_adjacent h _ a b this.2⟩
  · have e : b - (a + 1) = 0 := by omega
    rw [e]
    simp only [List.range'_zero, List.foldl_nil]
    exact ⟨Within.refl _ _ _, fun i j hi hij hj => by omega⟩

/-! ## Sorting: the scans of the partition loops -/

theorem scanUp_spec (test : Nat → Bool) (j steps i : Nat) (hfuel : j + 1 - i ≤ steps) :
    i ≤ scanUp test j steps i ∧ scanUp test j steps i ≤ max i (j + 1) ∧
      (∀ k, i ≤ k → k < scanUp test j steps i → test k = true) ∧
      (scanUp test j steps i ≤ j → test (scanUp test j steps i) = false) := by
  induction steps generalizing i with
  | zero =>
    simp only [scanUp]
    refine ⟨le_refl _, le_max_left _ _, fun k h1 h2 => by omega, fun h => by omega⟩
  | succ n ih =>
    simp only [scanUp]
    by_cases hc : i ≤ j ∧ test i = true
    · rw [if_pos hc]
      obtain ⟨h1, h2, h3, h4⟩ := ih (i + 1) (by omega)
      refine ⟨by omega, ?_, ?_, h4⟩
      · have : max (i + 1) (j + 1) = max i (j + 1) := by
          rw [max_eq_right (by omega), max_eq_right (by omega)]
        omega
      · intro k hk1 hk2
        by_cases e : k = i
        · rw [e]
          exact hc.2
        · exact h3 k (by omega) hk2
    · rw [if_neg hc]
      refine ⟨le_refl _, le_max_left _ _, fun k h1 h2 => by omega, ?_⟩
      intro hij
      cases ht : test i
      · rfl
      · exact absurd ⟨hij, ht⟩ hc

theorem scanDown_spec (test : Nat → Bool) (i steps j : Nat) (hi : 1 ≤ i)
    (hfuel : j + 1 - i ≤ steps) :
    scanDown test i steps j ≤ j ∧ min i (j + 1) ≤ scanDown test i steps j + 1 ∧
      (∀ k, scanDown test i steps j < k → k ≤ j → test k = true) ∧
      (i ≤ scanDown test i steps j → test (scanDown test i steps j) = false) := by
  induction steps generalizing j with
  | zero =>
    simp only [scanDown]
    refine ⟨le_refl _, by omega, fun k h1 h2 => by omega, fun h => by omega⟩
  | succ n ih =>
    simp only [scanDown]
    by_cases hc : i ≤ j ∧ test j = true
    · rw [if_pos hc]
      obtain ⟨h1, h2, h3, h4⟩ := ih (j - 1) (by omega)
      refine ⟨by omega, by omega, ?_, h4⟩
      intro k hk1 hk2
      by_cases e : k = j
      · rw [e]
        exact hc.2
      · exact h3 k hk1 (by omega)
    · rw [if_neg hc]
      refine ⟨le_refl _, by omega, fun k h1 h2 => by omega, ?_⟩
      intro hij
      cases ht : test j
      · rfl
      · exact absurd ⟨hij, ht⟩ hc

theorem scanLessUp_eq {α : Type} (cmp : α → α → Int) (d : List α) (a j steps i : Nat) :
    scanLessUp cmp d a j steps i = scanUp (fun k => lessAt cmp d k a) j steps i := by
  induction steps generalizing i with
  | zero => rfl
  | succ n ih => simp only [scanLessUp, scanUp, ih]

theorem scanNotLessDown_eq {α : Type} (cmp : α → α → Int) (d : List α) (a i steps j : Nat) :
    scanNotLessDown cmp d a i steps j =
      scanDown (fun k => !lessAt cmp d k a) i steps j := by
  induction steps generalizing j with
  | zero => rfl
  | succ n ih => simp only [scanNotLessDown, scanDown, ih, Bool.not_eq_true']

theorem scanNotGreaterUp_eq {α : Type} (cmp : α → α → Int) (d : List α) (a j steps i : Nat) :
    scanNotGreaterUp cmp d a j steps i =
      scanUp (fun k => !lessAt cmp d a k) j steps i := by
  induction steps generalizing i with
  | zero => rfl
  | succ n ih => simp only [scanNotGreaterUp, scanUp, ih, Bool.not_eq_true']

theorem scanGreaterDown_eq {α : Type} (cmp : α → α → Int) (d : List α) (a i steps j : Nat) :
    scanGreaterDown cmp d a i steps j = scanDown (fun k => lessAt cmp d a k) i steps j := by
  induction steps generalizing j with
  | zero => rfl
  | succ n ih => simp only [scanGreaterDown, scanDown, ih]

/-! ## Sorting: the two-sided partition loop -/

theorem hoareLoop_spec {α : Type} [Inhabited α] (T : List α → Nat → Bool) (L : α → Bool)
    (a b n : Nat) (p : α)
    (hT : ∀ d k, d.length = n → gv d a = p → a < k → k < b → T d k = L (gv d k))
    (steps : Nat) (d : List α) (i j : Nat)
    (hai : a < i) (hjb : j < b) (hij : i ≤ j + 1) (hb : b ≤ d.length) (hn : d.length = n)
    (hp : gv d a = p)
    (hl : ∀ k, a < k → k < i → L (gv d k) = true)
    (hr : ∀ k, j < k → k < b → L (gv d k) = false)
    (hfuel : j + 1 - i ≤ steps) :
    Within (a + 1) b d (hoareLoop T steps d i j).1 ∧
      (hoareLoop T steps d i j).2.1 = (hoareLoop T steps d i j).2.2 + 1 ∧
      a < (hoareLoop T steps d i j).2.1 ∧ (hoareLoop T steps d i j).2.2 < b ∧
      (∀ k, a < k → k < (hoareLoop T steps d i j).2.1 →
        L (gv (hoareLoop T steps d i j).1 k) = true) ∧
      (∀ k, (hoareLoop T steps d i j).2.2 < k → k < b →
        L (gv (hoareLoop T steps d i j).1 k) = false) := by
  induction steps generalizing d i j with
  | zero =>
    simp only [hoareLoop]
    exact ⟨Within.refl _ _ _, by omega, hai, hjb, hl, hr⟩
  | succ s ih =>
    simp only [hoareLoop]
    obtain ⟨u1, u2, u3, u4⟩ := scanUp_spec (T d) j (j + 1 - i) i (le_refl _)
    generalize scanUp (T d) j (j + 1 - i) i = i' at u1 u2 u3 u4 ⊢
    have hi'b : i' ≤ j + 1 := by
      have : max i (j + 1) = j + 1 := max_eq_right hij
      omega
    obtain ⟨v1, v2, v3, v4⟩ := scanDown_spec (fun k => !T d k) i' (j + 1 - i') j (by omega)
      (le_refl _)
    generalize scanDown (fun k => !T d k) i' (j + 1 - i') j = j' at v1 v2 v3 v4 ⊢
    have hmin : i' ≤ j' + 1 := by
      have : min i' (j + 1) = i' := min_eq_left hi'b
      omega
    have hl' : ∀ k, a < k → k < i' → L (gv d k) = true := by
      intro k hk1 hk2
      by_cases hki : k < i
      · exact hl k hk1 hki
      · rw [← hT d k hn hp hk1 (by omega)]
        exact u3 k (by omega) hk2
    have hr' : ∀ k, j' < k → k < b → L (gv d k) = false := by
      intro k hk1 hk2
      by_cases hkj : j < k
      · exact hr k hkj hk2
      · have := v3 k hk1 (by omega)
        rw [hT d k hn hp (by omega) hk2] at this
        simpa using this
    by_cases hc : i' > j'
    · rw [if_pos hc]
      dsimp only
      exact ⟨Within.refl _ _ _, by omega, by omega, by omega, hl', hr'⟩
    · rw [if_neg hc]
      have hi'j : i' ≤ j := by omega
      have e1 : L (gv d i') = false := by
        rw [← hT d i' hn hp (by omega) (by omega)]
        exact u4 hi'j
      have e2 : L (gv d j') = true := by
        have := v4 (by omega)
        rw [hT d j' hn hp (by omega) (by omega)] at this
        simpa using this
      have hne : i' ≠ j' := by
        intro e
        rw [e] at e1
        rw [e1] at e2
        cases e2
      have hlt : i' < j' := by omega
      have hi'len : i' < d.length := by omega
      have hj'len : j' < d.length := by omega
      have hg : ∀ k, gv (swapAt d i' j') k =
          if k = j' then gv d i' else if k = i' then gv d j' else gv d k :=
        fun k => gv_swapAt d i' j' k hi'len hj'len
      have hw : Within (a + 1) b d (swapAt d i' j') :=
        Within.swapAt (a + 1) b d i' j' (by omega) (by omega) (by omega) (by omega) hb
      have := ih (swapAt d i' j') (i' + 1) (j' - 1) (by omega) (by omega) (by omega)
        (by rw [swapAt_length]; exact hb) (by rw [swapAt_length]; exact hn)
        (by rw [hw.2.1 a (by omega)]; exact hp)
        (by
          intro k hk1 hk2
          rw [hg]
          by_cases e3 : k = j'
          · omega
          · by_cases e4 : k = i'
            · subst e4
              simp only [e3, if_false, if_true]
              exact e2
            · simp only [e3, e4, if_false]
              exact hl' k hk1 (by omega))
        (by
          intro k hk1 hk2
          rw [hg]
          by_cases e3 : k = j'
          · simp only [e3, if_true]
            exact e1
          · have e4 : ¬ k = i' := by omega
            simp only [e3, e4, if_false]
            exact hr' k (by omega) hk2)
        (by omega)
      exact ⟨hw.trans this.1, this.2⟩

theorem partitionLoop_eq {α : Type} (cmp : α → α → Int) (a steps : Nat) (d : List α)
    (i j : Nat) :
    partitionLoop cmp a steps d i j =
      ((hoareLoop (fun d k => lessAt cmp d k a) steps d i j).1,
        (hoareLoop (fun d k => lessAt cmp d k a) steps d i j).2.2) := by
  induction steps generalizing d i j with
  | zero => rfl
  | succ s ih =>
    simp only [partitionLoop, hoareLoop, scanLessUp_eq, scanNotLessDown_eq]
    split
    · rfl
    · exact ih _ _ _

theorem partitionEqualLoop_eq {α : Type} (cmp : α → α → Int) (a steps : Nat) (d : List α)
    (i j : Nat) :
    partitionEqualLoop cmp a steps d i j =
      ((hoareLoop (fun d k => !lessAt cmp d a k) steps d i j).1,
        (hoareLoop (fun d k => !lessAt cmp d a k) steps d i j).2.1) := by
  induction steps generalizing d i j with
  | zero => rfl
  | succ s ih =>
    simp only [partitionEqualLoop, hoareLoop, scanNotGreaterUp_eq, scanGreaterDown_eq,
      Bool.not_not]
    split
    · rfl
    · exact ih _ _ _

theorem partitionCmpFunc_eq {α : Type} (cmp : α → α → Int) (d : List α) (a b pivot : Nat) :
    (partitionCmpFunc cmp d a b pivot).1 =
        swapAt (hoareLoop (fun d k => lessAt cmp d k a) (b - a + 1) (swapAt d a pivot)
          (a + 1) (b - 1)).1
          (hoareLoop (fun d k => lessAt cmp d k a) (b - a + 1) (swapAt d a pivot)
            (a + 1) (b - 1)).2.2 a ∧
      (partitionCmpFunc cmp d a b pivot).2.1 =
        (hoareLoop (fun d k => lessAt cmp d k a) (b - a + 1) (swapAt d a pivot)
          (a + 1) (b - 1)).2.2 := by
  simp only [partitionCmpFunc, hoareLoop, scanLessUp_eq, scanNotLessDown_eq,
    partitionLoop_eq]
  split <;> exact ⟨rfl, rfl⟩

/-! ## Sorting: `partitionCmpFunc` and `partitionEqualCmpFunc` -/

theorem partitionCmpFunc_spec {α : Type} [Inhabited α] (cmp : α → α → Int) (d : List α)
    (a b pivot : Nat) (hap : a ≤ pivot) (hpb : pivot < b) (hb : b ≤ d.length) :
    Within a b d (partitionCmpFunc cmp d a b pivot).1 ∧
      a ≤ (partitionCmpFunc cmp d a b pivot).2.1 ∧
      (partitionCmpFunc cmp d a b pivot).2.1 < b ∧
      gv (partitionCmpFunc cmp d a b pivot).1 (partitionCmpFunc cmp d a b pivot).2.1 =
        gv d pivot ∧
      (∀ k, a ≤ k → k < (partitionCmpFunc cmp d a b pivot).2.1 →
        cmp (gv (partitionCmpFunc cmp d a b pivot).1 k) (gv d pivot) < 0) ∧
      (∀ k, (partitionCmpFunc cmp d a b pivot).2.1 < k → k < b →
        ¬ cmp (gv (partitionCmpFunc cmp d a b pivot).1 k) (gv d pivot) < 0) := by
  obtain ⟨e1, e2⟩ := partitionCmpFunc_eq cmp d a b pivot
  rw [e1, e2]
  have ha : a < d.length := by omega
  have hpl : pivot < d.length := by omega
  have hw0 : Within a b d (swapAt d a pivot) :=
    Within.swapAt a b d a pivot (le_refl _) (by omega) hap hpb hb
  have hp0 : gv (swapAt d a pivot) a = gv d pivot := by
    rw [gv_swapAt d a pivot a ha hpl]
    by_cases e : a = pivot
    · simp [e]
    · simp [e]
  have hlen0 : (swapAt d a pivot).length = d.length := swapAt_length _ _ _
  have hs := hoareLoop_spec (fun d k => lessAt cmp d k a)
    (fun x => decide (cmp x (gv d pivot) < 0)) a b d.length (gv d pivot)
    (by
      intro d' k hl hp hk1 hk2
      simp only
      rw [lessAt_eq cmp d' k a (by omega) (by omega), hp])
    (b - a + 1) (swapAt d a pivot) (a + 1) (b - 1) (by omega) (by omega) (by omega)
    (by omega) hlen0 hp0 (fun k h1 h2 => by omega) (fun k h1 h2 => by omega) (by omega)
  generalize hoareLoop (fun d k => lessAt cmp d k a) (b - a + 1) (swapAt d a pivot)
    (a + 1) (b - 1) = r at hs ⊢
  obtain ⟨w, hij, hai, hjb, hl, hr⟩ := hs
  have hrlen : r.1.length = d.length := w.1.trans hlen0
  have hra : gv r.1 a = gv d pivot := by
    rw [w.2.1 a (by omega)]
    exact hp0
  have hg : ∀ k, gv (swapAt r.1 r.2.2 a) k =
      if k = a then gv r.1 r.2.2 else if k = r.2.2 then gv r.1 a else gv r.1 k :=
    fun k => gv_swapAt r.1 r.2.2 a k (by omega) (by omega)
  refine ⟨?_, by omega, hjb, ?_, ?_, ?_⟩
  · have w1 : Within a b (swapAt d a pivot) r.1 := w.widen (by omega) (le_refl _)
    have w2 : Within a b r.1 (swapAt r.1 r.2.2 a) :=
      Within.swapAt a b r.1 r.2.2 a (by omega) hjb (le_refl _) (by omega) (by omega)
    exact (hw0.trans w1).trans w2
  · rw [hg]
    by_cases e : r.2.2 = a
    · simp only [e, if_true]
      rw [← e]
      have := hra
      rw [← e] at this
      rw [e] at this ⊢
      exact this
    · simp only [e, if_false, if_true]
      exact hra
  · intro k hk1 hk2
    rw [hg]
    by_cases e : k = a
    · simp only [e, if_true]
      have := hl r.2.2 (by omega) (by omega)
      simpa using this
    · have e' : ¬ k = r.2.2 := by omega
      simp only [e, e', if_false]
      have := hl k (by omega) (by omega)
      simpa using this
  · intro k hk1 hk2
    rw [hg]
    have e : ¬ k = a := by omega
    have e' : ¬ k = r.2.2 := by omega
    simp only [e, e', if_false]
    have := hr k hk1 hk2
    simpa using this

theorem partitionEqualCmpFunc_spec {α : Type} [Inhabited α] {cmp : α → α → Int}
    (h : IsStrictWeakOrdering cmp) (d : List α)
    (a b pivot : Nat) (hap : a ≤ pivot) (hpb : pivot < b) (hb : b ≤ d.length) :
    Within a b d (partitionEqualCmpFunc cmp d a b pivot).1 ∧
      a < (partitionEqualCmpFunc cmp d a b pivot).2 ∧
      (partitionEqualCmpFunc cmp d a b pivot).2 ≤ b ∧
      (∀ k, a ≤ k → k < (partitionEqualCmpFunc cmp d a b pivot).2 →
        ¬ cmp (gv d pivot) (gv (partitionEqualCmpFunc cmp d a b pivot).1 k) < 0) ∧
      (∀ k, (partitionEqualCmpFunc cmp d a b pivot).2 ≤ k → k < b →
        cmp (gv d pivot) (gv (partitionEqualCmpFunc cmp d a b pivot).1 k) < 0) := by
  simp only [partitionEqualCmpFunc, partitionEqualLoop_eq]
  have ha : a < d.length := by omega
  have hpl : pivot < d.length := by omega
  have hw0 : Within a b d (swapAt d a pivot) :=
    Within.swapAt a b d a pivot (le_refl _) (by omega) hap hpb hb
  have hp0 : gv (swapAt d a pivot) a = gv d pivot := by
    rw [gv_swapAt d a pivot a ha hpl]
    by_cases e : a = pivot
    · simp [e]
    · simp [e]
  have hlen0 : (swapAt d a pivot).length = d.length := swapAt_length _ _ _
  have hs := hoareLoop_spec (fun d k => !lessAt cmp d a k)
    (fun x => !decide (cmp (gv d pivot) x < 0)) a b d.length (gv d pivot)
    (by
      intro d' k hl hp hk1 hk2
      simp only
      rw [lessAt_eq cmp d' a k (by omega) (by omega), hp])
    (b - a + 1) (swapAt d a pivot) (a + 1) (b - 1) (by omega) (by omega) (by omega)
    (by omega) hlen0 hp0 (fun k h1 h2 => by omega) (fun k h1 h2 => by omega) (by omega)
  generalize hoareLoop (fun d k => !lessAt cmp d a k) (b - a + 1) (swapAt d a pivot)
    (a + 1) (b - 1) = r at hs ⊢
  obtain ⟨w, hij, hai, hjb, hl, hr⟩ := hs
  have hra : gv r.1 a = gv d pivot := by
    rw [w.2.1 a (by omega)]
    exact hp0
  refine ⟨hw0.trans (w.widen (by omega) (le_refl _)), hai, by omega, ?_, ?_⟩
  · intro k hk1 hk2
    by_cases e : k = a
    · rw [e, hra]
      exact swo_irrefl h _
    · have := hl k (by omega) hk2
      simpa using this
  · intro k hk1 hk2
    have := hr k (by omega) hk2
    simpa using this

/-! ## Sorting: pattern breaking, reversal and pivot choice stay in range -/

theorem bitsLenLoop_pow_le (steps n : Nat) (hn : 1 ≤ n) (hs : n ≤ steps) :
    2 ^ bitsLenLoop steps n ≤ 2 * n := by
  induction steps generalizing n with
  | zero => omega
  | succ s ih =>
    have hn0 : ¬ n = 0 := by omega
    simp only [bitsLenLoop, hn0, if_false]
    rw [pow_succ]
    by_cases h1 : n / 2 = 0
    · have : bitsLenLoop s (n / 2) = 0 := by
        rw [h1]
        cases s <;> simp [bitsLenLoop]
      rw [this]
      omega
    · have := ih (n / 2) (by omega) (by omega)
      omega

theorem nextPowerOfTwo_le (n : Nat) (hn : 1 ≤ n) : nextPowerOfTwo n ≤ 2 * n :=
  bitsLenLoop_pow_le n n hn (le_refl _)

theorem nextPowerOfTwo_pos (n : Nat) : 0 < nextPowerOfTwo n :=
  Nat.pos_pow_of_pos _ (by norm_num)

theorem breakPatternsLoop_within {α : Type} [Inhabited α] (next : Nat → Nat)
    (a b length modulus idx : Nat) (hlen : a + length = b) (hmod : modulus ≤ 2 * length)
    (hmod0 : 0 < modulus) (hidx1 : a + 1 ≤ idx) (hidx2 : idx + 1 < b)
    (count i random : Nat) (d : List α) (hb : b ≤ d.length) (hi : i + count ≤ 3) :
    Within a b d (breakPatternsLoop next a length modulus idx count i random d) := by
  induction count generalizing i random d with
  | zero => exact Within.refl _ _ _
  | succ c ih =>
    simp only [breakPatternsLoop]
    have hand : next random &&& (modulus - 1) ≤ modulus - 1 := Nat.and_le_right
    generalize next random &&& (modulus - 1) = other at hand
    have hother : (if other ≥ length then other - length else other) < length := by
      split <;> omega
    generalize (if other ≥ length then other - length else other) = other' at hother
    have hw : Within a b d (swapAt d (idx - 1 + i) (a + other')) :=
      Within.swapAt a b d _ _ (by omega) (by omega) (by omega) (by omega) hb
    exact hw.trans (ih (i + 1) _ _ (by rw [hw.1]; exact hb) (by omega))

theorem breakPatternsCmpFunc_within {α : Type} [Inhabited α] (next : Nat → Nat)
    (d : List α) (a b : Nat) (hab : a ≤ b) (hb : b ≤ d.length) :
    Within a b d (breakPatternsCmpFunc next d a b) := by
  simp only [breakPatternsCmpFunc]
  split
  · rename_i hl
    exact breakPatternsLoop_within next a b (b - a) (nextPowerOfTwo (b - a))
      (a + (b - a) / 4 * 2 - 1) (by omega) (nextPowerOfTwo_le _ (by omega))
      (nextPowerOfTwo_pos _) (by omega) (by omega) 3 0 (b - a) d hb (by omega)
  · exact Within.refl _ _ _

theorem reverseRangeLoop_within {α : Type} [Inhabited α] (a b steps i j : Nat) (d : List α)
    (hai : a ≤ i) (hjb : j < b) (hb : b ≤ d.length) :
    Within a b d (reverseRangeLoop steps i j d) := by
  induction steps generalizing i j d with
  | zero => exact Within.refl _ _ _
  | succ s ih =>
    simp only [reverseRangeLoop]
    split
    · have hw : Within a b d (swapAt d i j) :=
        Within.swapAt a b d i j hai (by omega) (by omega) hjb hb
      exact hw.trans (ih (i + 1) (j - 1) _ (by omega) (by omega) (by rw [hw.1]; exact hb))
    · exact Within.refl _ _ _

theorem reverseRangeCmpFunc_within {α : Type} [Inhabited α] (d : List α) (a b : Nat)
    (hab : a < b) (hb : b ≤ d.length) : Within a b d (reverseRangeCmpFunc d a b) :=
  reverseRangeLoop_within a b _ a (b - 1) d (le_refl _) (by omega) hb

theorem order2CmpFunc_mem {α : Type} (cmp : α → α → Int) (d : List α) (a b s : Nat) :
    ((order2CmpFunc cmp d a b s).1 = a ∧ (order2CmpFunc cmp d a b s).2.1 = b) ∨
      ((order2CmpFunc cmp d a b s).1 = b ∧ (order2CmpFunc cmp d a b s).2.1 = a) := by
  unfold order2CmpFunc
  split
  · exact Or.inr ⟨rfl, rfl⟩
  · exact Or.inl ⟨rfl, rfl⟩

theorem medianCmpFunc_mem {α : Type} (cmp : α → α → Int) (d : List α) (a b c s : Nat) :
    (medianCmpFunc cmp d a b c s).1 = a ∨ (medianCmpFunc cmp d a b c s).1 = b ∨
      (medianCmpFunc cmp d a b c s).1 = c := by
  simp only [medianCmpFunc]
  have h1 := order2CmpFunc_mem cmp d a b s
  generalize order2CmpFunc cmp d a b s = r1 at h1 ⊢
  have h2 := order2CmpFunc_mem cmp d r1.2.1 c r1.2.2
  generalize order2CmpFunc cmp d r1.2.1 c r1.2.2 = r2 at h2 ⊢
  have h3 := order2CmpFunc_mem cmp d r1.1 r2.1 r2.2.2
  generalize order2CmpFunc cmp d r1.1 r2.1 r2.2.2 = r3 at h3 ⊢
  rcases h1 with ⟨e1, e2⟩ | ⟨e1, e2⟩ <;> rcases h2 with ⟨e3, e4⟩ | ⟨e3, e4⟩ <;>
    rcases h3 with ⟨e5, e6⟩ | ⟨e5, e6⟩ <;> simp_all

theorem medianCmpFunc_range {α : Type} (cmp : α → α → Int) (d : List α) (a b c s lo hi : Nat)
    (ha : lo ≤ a ∧ a < hi) (hb : lo ≤ b ∧ b < hi) (hc : lo ≤ c ∧ c < hi) :
    lo ≤ (medianCmpFunc cmp d a b c s).1 ∧ (medianCmpFunc cmp d a b c s).1 < hi := by
  rcases medianCmpFunc_mem cmp d a b c s with e | e | e <;> rw [e] <;> assumption

theorem choosePivotCmpFunc_fst {α : Type} (cmp : α → α → Int) (d : List α) (a b : Nat) :
    (choosePivotCmpFunc cmp d a b).1 =
      (if b - a ≥ 8 then
        if b - a ≥ 50 then
          medianCmpFunc cmp d
            (medianAdjacentCmpFunc cmp d (a + (b - a) / 4 * 1) 0).1
            (medianAdjacentCmpFunc cmp d (a + (b - a) / 4 * 2)
              (medianAdjacentCmpFunc cmp d (a + (b - a) / 4 * 1) 0).2).1
            (medianAdjacentCmpFunc cmp d (a + (b - a) / 4 * 3)
              (medianAdjacentCmpFunc cmp d (a + (b - a) / 4 * 2)
                (medianAdjacentCmpFunc cmp d (a + (b - a) / 4 * 1) 0).2).2).1
            (medianAdjacentCmpFunc cmp d (a + (b - a) / 4 * 3)
              (medianAdjacentCmpFunc cmp d (a + (b - a) / 4 * 2)
                (medianAdjacentCmpFunc cmp d (a + (b - a) / 4 * 1) 0).2).2).2
        else medianCmpFunc cmp d (a + (b - a) / 4 * 1) (a + (b - a) / 4 * 2)
          (a + (b - a) / 4 * 3) 0
      else (a + (b - a) / 4 * 2, 0)).1 := by
  have key : ∀ r : Nat × Nat,
      (if r.2 = 0 then (r.1, sortedHint.increasingHint)
        else if r.2 = 12 then (r.1, sortedHint.decreasingHint)
        else (r.1, sortedHint.unknownHint)).1 = r.1 := by
    intro r
    split
    · rfl
    · split <;> rfl
  unfold choosePivotCmpFunc
  exact key _

theorem choosePivotCmpFunc_range {α : Type} (cmp : α → α → Int) (d : List α) (a b : Nat)
    (hab : a + 8 ≤ b) :
    a ≤ (choosePivotCmpFunc cmp d a b).1 ∧ (choosePivotCmpFunc cmp d a b).1 < b := by
  rw [choosePivotCmpFunc_fst]
  have h8 : b - a ≥ 8 := by omega
  rw [if_pos h8]
  split
  · rename_i h50
    apply medianCmpFunc_range
    · unfold medianAdjacentCmpFunc
      apply medianCmpFunc_range <;> omega
    · unfold medianAdjacentCmpFunc
      apply medianCmpFunc_range <;> omega
    · unfold medianAdjacentCmpFunc
      apply medianCmpFunc_range <;> omega
  · apply medianCmpFunc_range <;> omega

theorem pdqPivot_range {α : Type} (cmp : α → α → Int) (d : List α) (a b : Nat)
    (hab : a + 8 ≤ b) : a ≤ pdqPivot cmp d a b ∧ pdqPivot cmp d a b < b := by
  have := choosePivotCmpFunc_range cmp d a b hab
  unfold pdqPivot
  split <;> omega

theorem pdqBroken_within {α : Type} [Inhabited α] (next : Nat → Nat) (d : List α)
    (a b : Nat) (wb : Bool) (hab : a ≤ b) (hb : b ≤ d.length) :
    Within a b d (pdqBroken next d a b wb) := by
  unfold pdqBroken
  split
  · exact Within.refl _ _ _
  · exact breakPatternsCmpFunc_within next d a b hab hb

theorem pdqReversed_within {α : Type} [Inhabited α] (cmp : α → α → Int) (d : List α)
    (a b : Nat) (hab : a < b) (hb : b ≤ d.length) :
    Within a b d (pdqReversed cmp d a b) := by
  unfold pdqReversed
  split
  · exact reverseRangeCmpFunc_within d a b hab hb
  · exact Within.refl _ _ _

/-! ## Sorting: `partialInsertionSortCmpFunc` -/

theorem LeftBound.within {α : Type} [Inhabited α] {cmp : α → α → Int} {d d' : List α}
    {a b : Nat} (hl : LeftBound cmp d a b) (hw : Within a b d d') :
    LeftBound cmp d' a b := by
  intro ha k hk1 hk2
  rw [hw.2.1 (a - 1) (by omega)]
  exact hw.forall_range (fun x => ¬ cmp x (gv d (a - 1)) < 0) (hl ha) k hk1 hk2

theorem scanSortedUp_eq {α : Type} (cmp : α → α → Int) (d : List α) (b steps i : Nat)
    (hb : 1 ≤ b) :
    scanSortedUp cmp d b steps i =
      scanUp (fun k => !lessAt cmp d k (k - 1)) (b - 1) steps i := by
  induction steps generalizing i with
  | zero => rfl
  | succ n ih =>
    simp only [scanSortedUp, scanUp, ih, Bool.not_eq_true']
    have : i < b ↔ i ≤ b - 1 := by omega
    simp only [this]

theorem shiftSmallerLeft_eq {α : Type} [Inhabited α] (cmp : α → α → Int) (a b j : Nat)
    (d : List α) (haj : a ≤ j) (hjb : j < b) (hb : b ≤ d.length)
    (hl : LeftBound cmp d a b) :
    shiftSmallerLeft cmp j d = insertionInner cmp a j d := by
  induction j generalizing d with
  | zero => rfl
  | succ j ih =>
    simp only [shiftSmallerLeft, insertionInner]
    by_cases ha : a < j + 1
    · by_cases hc : lessAt cmp d (j + 1) j = true
      · have hw : Within a b d (swapAt d (j + 1) j) :=
          Within.swapAt a b d (j + 1) j (by omega) hjb (by omega) (by omega) hb
        simp only [hc, ha, and_self, if_true, Bool.true_eq_false, if_false]
        exact ih _ (by omega) (by omega) (by rw [hw.1]; exact hb) (hl.within hw)
      · simp only [Bool.not_eq_true] at hc
        simp [hc]
    · have e : a = j + 1 := by omega
      have hlt : lessAt cmp d (j + 1) j = false := by
        rw [lessAt_eq cmp d (j + 1) j (by omega) (by omega)]
        have := hl (by omega) (j + 1) (by omega) hjb
        have e2 : a - 1 = j := by omega
        rw [e2] at this
        simpa using this
      simp [hlt, ha]

theorem shiftGreaterRight_within {α : Type} [Inhabited α] (cmp : α → α → Int)
    (i b steps j : Nat) (d : List α) (hij : i + 1 ≤ j) (hb : b ≤ d.length) :
    Within i b d (shiftGreaterRight cmp b steps j d) := by
  induction steps generalizing j d with
  | zero => exact Within.refl _ _ _
  | succ s ih =>
    simp only [shiftGreaterRight]
    split
    · split
      · exact Within.refl _ _ _
      · have hw : Within i b d (swapAt d j (j - 1)) :=
          Within.swapAt i b d j (j - 1) (by omega) (by omega) (by omega) (by omega) hb
        exact hw.trans (ih (j + 1) _ (by omega) (by rw [hw.1]; exact hb))
    · exact Within.refl _ _ _

theorem partialInsertionLoop_spec {α : Type} [Inhabited α] {cmp : α → α → Int}
    (h : IsStrictWeakOrdering cmp) (a b count i : Nat) (d : List α)
    (hai : a + 1 ≤ i) (hib : i ≤ b) (hb : b ≤ d.length)
    (hs : ∀ k, a ≤ k → k + 1 < i → ¬ cmp (gv d (k + 1)) (gv d k) < 0)
    (hl : LeftBound cmp d a b) :
    Within a b d (partialInsertionLoop cmp a b count i d).1 ∧
      ((partialInsertionLoop cmp a b count i d).2 = true →
        SortedOn cmp (partialInsertionLoop cmp a b count i d).1 a b) := by
  induction count generalizing i d with
  | zero =>
    simp only [partialInsertionLoop]
    exact ⟨Within.refl _ _ _, fun hf => by cases hf⟩
  | succ c ih =>
    simp only [partialInsertionLoop]
    rw [scanSortedUp_eq cmp d b (b - i) i (by omega)]
    obtain ⟨u1, u2, u3, u4⟩ := scanUp_spec (fun k => !lessAt cmp d k (k - 1)) (b - 1)
      (b - i) i (by omega)
    generalize scanUp (fun k => !lessAt cmp d k (k - 1)) (b - 1) (b - i) i = i' at u1 u2 u3 u4 ⊢
    have hi'b : i' ≤ b := by
      have : max i (b - 1 + 1) = b := by
        rw [max_eq_right (by omega)]
        omega
      omega
    have hs' : ∀ k, a ≤ k → k + 1 < i' → ¬ cmp (gv d (k + 1)) (gv d k) < 0 := by
      intro k hk1 hk2
      by_cases hki : k + 1 < i
      · exact hs k hk1 hki
      · have := u3 (k + 1) (by omega) hk2
        rw [lessAt_eq cmp d (k + 1) (k + 1 - 1) (by omega) (by omega)] at this
        simpa using this
    by_cases e : i' = b
    · rw [if_pos e]
      refine ⟨Within.refl _ _ _, fun _ => ?_⟩
      rw [e] at hs'
      exact sortedOn_of_adjacent h d a b hs'
    · rw [if_neg e]
      by_cases h50 : b - a < 50
      · rw [if_pos h50]
        exact ⟨Within.refl _ _ _, fun hf => by cases hf⟩
      · rw [if_neg h50]
        have hi'lt : i' < b := by omega
        have hw1 : Within a b d (swapAt d i' (i' - 1)) :=
          Within.swapAt a b d i' (i' - 1) (by omega) hi'lt (by omega) (by omega) hb
        have hg : ∀ k, gv (swapAt d i' (i' - 1)) k =
            if k = i' - 1 then gv d i' else if k = i' then gv d (i' - 1) else gv d k :=
          fun k => gv_swapAt d i' (i' - 1) k (by omega) (by omega)
        generalize hd1 : swapAt d i' (i' - 1) = d1 at hw1 hg ⊢
        have hlen1 : d1.length = d.length := hw1.1
        have hs1 : ∀ k, a ≤ k → k + 1 < i' - 1 → ¬ cmp (gv d1 (k + 1)) (gv d1 k) < 0 := by
          intro k hk1 hk2
          rw [hg, hg]
          have e1 : ¬ k + 1 = i' - 1 := by omega
          have e2 : ¬ k + 1 = i' := by omega
          have e3 : ¬ k = i' - 1 := by omega
          have e4 : ¬ k = i' := by omega
          simp only [e1, e2, e3, e4, if_false]
          exact hs' k hk1 (by omega)
        have hl1 : LeftBound cmp d1 a b := hl.within hw1
        have hstep2 : ∃ d2, (if i' - a ≥ 2 then shiftSmallerLeft cmp (i' - 1) d1 else d1) = d2 ∧
            Within a b d1 d2 ∧
            ∀ k, a ≤ k → k + 1 < i' → ¬ cmp (gv d2 (k + 1)) (gv d2 k) < 0 := by
          refine ⟨_, rfl, ?_⟩
          by_cases h2 : i' - a ≥ 2
          · rw [if_pos h2]
            rw [shiftSmallerLeft_eq cmp a b (i' - 1) d1 (by omega) (by omega)
              (by rw [hlen1]; exact hb) hl1]
            have := insertionInner_spec h a (i' - 1) (i' - 1) d1 (by omega) (le_refl _)
              (by omega) (fun k hk1 hk2 hk3 => hs1 k hk1 (by omega))
              (fun _ hh => absurd hh (lt_irrefl _))
            refine ⟨this.1.widen (le_refl _) (by omega), ?_⟩
            intro k hk1 hk2
            exact this.2 k hk1 (by omega)
          · rw [if_neg h2]
            exact ⟨Within.refl _ _ _, fun k hk1 hk2 => by omega⟩
        obtain ⟨d2, hd2, hw2, hs2⟩ := hstep2
        rw [hd2]
        have hlen2 : d2.length = d.length := hw2.1.trans hlen1
        have hstep3 : ∃ d3,
            (if b - i' ≥ 2 then shiftGreaterRight cmp b (b - i') (i' + 1) d2 else d2) = d3 ∧
            Within i' b d2 d3 := by
          refine ⟨_, rfl, ?_⟩
          split
          · exact shiftGreaterRight_within cmp i' b _ _ d2 (le_refl _)
              (by rw [hlen2]; exact hb)
          · exact Within.refl _ _ _
        obtain ⟨d3, hd3, hw3⟩ := hstep3
        rw [hd3]
        have hw3' : Within a b d2 d3 := hw3.widen (by omega) (le_refl _)
        have hs3 : ∀ k, a ≤ k → k + 1 < i' → ¬ cmp (gv d3 (k + 1)) (gv d3 k) < 0 := by
          intro k hk1 hk2
          rw [hw3.2.1 (k + 1) (by omega), hw3.2.1 k (by omega)]
          exact hs2 k hk1 hk2
        have hwall : Within a b d d3 := (hw1.trans hw2).trans hw3'
        have := ih i' d3 (by omega) hi'b (by rw [hwall.1]; exact hb) hs3 (hl.within hwall)
        exact ⟨hwall.trans this.1, this.2⟩

theorem partialInsertionSortCmpFunc_spec {α : Type} [Inhabited α] {cmp : α → α → Int}
    (h : IsStrictWeakOrdering cmp) (d : List α) (a b : Nat) (hab : a + 1 ≤ b)
    (hb : b ≤ d.length) (hl : LeftBound cmp d a b) :
    Within a b d (partialInsertionSortCmpFunc cmp d a b).1 ∧
      ((partialInsertionSortCmpFunc cmp d a b).2 = true →
        SortedOn cmp (partialInsertionSortCmpFunc cmp d a b).1 a b) :=
  partialInsertionLoop_spec h a b 5 (a + 1) d (le_refl _) hab hb
    (fun k hk1 hk2 => by omega) hl

/-! ## Sorting: heap sort -/

theorem siftDownLoop_spec {α : Type} [Inhabited α] {cmp : α → α → Int}
    (h : IsStrictWeakOrdering cmp) (lo hi first steps root : Nat) (d : List α)
    (hlo : lo ≤ root) (hlen : first + hi ≤ d.length) (hfuel : hi ≤ root + steps)
    (hheap : ∀ p, lo ≤ p → p ≠ root → HeapAt cmp d first hi p)
    (hgp : ∀ q, lo ≤ q → (root = 2 * q + 1 ∨ root = 2 * q + 2) →
      ∀ c, (c = 2 * root + 1 ∨ c = 2 * root + 2) → c < hi →
        ¬ cmp (gv d (first + q)) (gv d (first + c)) < 0) :
    Within (first + lo) (first + hi) d (siftDownLoop cmp hi first steps root d) ∧
      ∀ p, lo ≤ p → HeapAt cmp (siftDownLoop cmp hi first steps root d) first hi p := by
  induction steps generalizing root d with
  | zero =>
    simp only [siftDownLoop]
    refine ⟨Within.refl _ _ _, ?_⟩
    intro p hp
    by_cases e : p = root
    · intro c hc1 hc2
      omega
    · exact hheap p hp e
  | succ s ih =>
    simp only [siftDownLoop]
    by_cases hch : 2 * root + 1 ≥ hi
    · rw [if_pos hch]
      refine ⟨Within.refl _ _ _, ?_⟩
      intro p hp
      by_cases e : p = root
      · intro c hc1 hc2
        omega
      · exact hheap p hp e
    · rw [if_neg hch]
      have hsel : ∃ c, (if 2 * root + 1 + 1 < hi ∧
            lessAt cmp d (first + (2 * root + 1)) (first + (2 * root + 1) + 1) = true then
            2 * root + 1 + 1 else 2 * root + 1) = c ∧
          (c = 2 * root + 1 ∨ c = 2 * root + 2) ∧ c < hi ∧
          ∀ x, (x = 2 * root + 1 ∨ x = 2 * root + 2) → x < hi →
            ¬ cmp (gv d (first + c)) (gv d (first + x)) < 0 := by
        refine ⟨_, rfl, ?_⟩
        by_cases hc : 2 * root + 1 + 1 < hi ∧
            lessAt cmp d (first + (2 * root + 1)) (first + (2 * root + 1) + 1) = true
        · rw [if_pos hc]
          refine ⟨Or.inr rfl, hc.1, ?_⟩
          have hlt := hc.2
          rw [lessAt_eq cmp d _ _ (by omega) (by omega)] at hlt
          have hlt' : cmp (gv d (first + (2 * root + 1))) (gv d (first + (2 * root + 1) + 1))
              < 0 := by simpa using hlt
          intro x hx1 hx2
          rcases hx1 with e | e
          · rw [e]
            exact swo_asymm h hlt'
          · rw [e]
            exact swo_irrefl h _
        · rw [if_neg hc]
          refine ⟨Or.inl rfl, by omega, ?_⟩
          intro x hx1 hx2
          rcases hx1 with e | e
          · rw [e]
            exact swo_irrefl h _
          · rw [e]
            have hlt : lessAt cmp d (first + (2 * root + 1)) (first + (2 * root + 1) + 1) =
                false := by
              cases hl : lessAt cmp d (first + (2 * root + 1)) (first + (2 * root + 1) + 1)
              · rfl
              · exact absurd ⟨by omega, hl⟩ hc
            rw [lessAt_eq cmp d _ _ (by omega) (by omega)] at hlt
            have e2 : first + (2 * root + 1) + 1 = first + (2 * root + 2) := by omega
            rw [e2] at hlt
            simpa using hlt
      obtain ⟨c, hce, hc1, hc2, hc3⟩ := hsel
      rw [hce]
      rw [lessAt_eq cmp d (first + root) (first + c) (by omega) (by omega)]
      by_cases hlt : cmp (gv d (first + root)) (gv d (first + c)) < 0
      · have hdec : decide (cmp (gv d (first + root)) (gv d (first + c)) < 0) = true := by
          simpa using hlt
        simp only [hdec, Bool.true_eq_false, if_false]
        have hw : Within (first + lo) (first + hi) d
            (swapAt d (first + root) (first + c)) :=
          Within.swapAt _ _ d _ _ (by omega) (by omega) (by omega) (by omega) hlen
        have hg : ∀ k, gv (swapAt d (first + root) (first + c)) k =
            if k = first + c then gv d (first + root)
            else if k = first + root then gv d (first + c) else gv d k :=
          fun k => gv_swapAt d (first + root) (first + c) k (by omega) (by omega)
        have := ih c (swapAt d (first + root) (first + c)) (by omega)
          (by rw [hw.1]; exact hlen) (by omega)
          (by
            intro p hp hpc x hx1 hx2
            rw [hg, hg]
            by_cases e1 : p = root
            · subst e1
              have e2 : ¬ first + p = first + c := by omega
              simp only [e2, if_false, if_true]
              by_cases e3 : x = c
              · subst e3
                simp only [if_true]
                exact swo_asymm h hlt
              · have e4 : ¬ first + x = first + c := by omega
                have e5 : ¬ first + x = first + p := by omega
                simp only [e4, e5, if_false]
                exact hc3 x hx1 hx2
            · have e2 : ¬ first + p = first + c := by omega
              have e3 : ¬ first + p = first + root := by omega
              have e4 : ¬ first + x = first + c := by omega
              simp only [e2, e3, e4, if_false]
              by_cases e5 : x = root
              · subst e5
                simp only [if_true]
                exact hgp p hp hx1 c hc1 hc2
              · have e6 : ¬ first + x = first + root := by omega
                simp only [e6, if_false]
                exact hheap p hp e1 x hx1 hx2)
          (by
            intro q hq hqc x hx1 hx2
            have eq : q = root := by omega
            subst eq
            rw [hg, hg]
            have e2 : ¬ first + q = first + c := by omega
            have e4 : ¬ first + x = first + c := by omega
            have e5 : ¬ first + x = first + q := by omega
            simp only [e2, e4, e5, if_false, if_true]
            exact hheap c (by omega) (by omega) x hx1 hx2)
        exact ⟨hw.trans this.1, this.2⟩
      · have hdec : decide (cmp (gv d (first + root)) (gv d (first + c)) < 0) = false := by
          simpa using hlt
        simp only [hdec, if_true]
        refine ⟨Within.refl _ _ _, ?_⟩
        intro p hp
        by_cases e : p = root
        · subst e
          intro x hx1 hx2
          exact swo_le_trans h (hc3 x hx1 hx2) hlt
        · exact hheap p hp e

theorem heap_root_max {α : Type} [Inhabited α] {cmp : α → α → Int}
    (h : IsStrictWeakOrdering cmp) (d : List α) (first n : Nat)
    (hheap : ∀ p, HeapAt cmp d first n p) :
    ∀ k, k < n → ¬ cmp (gv d first) (gv d (first + k)) < 0 := by
  intro k
  induction k using Nat.strong_induction_on with
  | _ k ih =>
    intro hk
    by_cases e : k = 0
    · subst e
      exact swo_irrefl h _
    · have hq : (k - 1) / 2 < k := by omega
      have h1 := ih ((k - 1) / 2) hq (by omega)
      have h2 := hheap ((k - 1) / 2) k (by omega) hk
      have e0 : first + 0 = first := by omega
      exact swo_le_trans h h2 h1

theorem buildHeap_spec {α : Type} [Inhabited α] {cmp : α → α → Int}
    (h : IsStrictWeakOrdering cmp) (hi first n : Nat) (d : List α)
    (hlen : first + hi ≤ d.length)
    (hheap : ∀ p, n ≤ p → HeapAt cmp d first hi p) :
    Within first (first + hi) d
        ((List.range n).reverse.foldl (fun d i => siftDownCmpFunc cmp d i hi first) d) ∧
      ∀ p, HeapAt cmp
        ((List.range n).reverse.foldl (fun d i => siftDownCmpFunc cmp d i hi first) d)
        first hi p := by
  induction n generalizing d with
  | zero =>
    simp only [List.range_zero, List.reverse_nil, List.foldl_nil]
    exact ⟨Within.refl _ _ _, fun p => hheap p (Nat.zero_le _)⟩
  | succ n ih =>
    rw [List.range_succ, List.reverse_append]
    simp only [List.reverse_cons, List.reverse_nil, List.nil_append, List.singleton_append,
      List.foldl_cons]
    have hs := siftDownLoop_spec h n hi first hi n d (le_refl _) hlen (by omega)
      (fun p hp hne => hheap p (by omega))
      (fun q hq hqc => by omega)
    have hw : Within first (first + hi) d (siftDownCmpFunc cmp d n hi first) :=
      hs.1.widen (by omega) (le_refl _)
    have := ih (siftDownCmpFunc cmp d n hi first) (by rw [hw.1]; exact hlen) hs.2
    exact ⟨hw.trans this.1, this.2⟩

theorem extractHeap_spec {α : Type} [Inhabited α] {cmp : α → α → Int}
    (h : IsStrictWeakOrdering cmp) (hi first n : Nat) (d : List α) (hn : n ≤ hi)
    (hlen : first + hi ≤ d.length)
    (hheap : ∀ p, HeapAt cmp d first n p)
    (hsorted : SortedOn cmp d (first + n) (first + hi))
    (hcross : ∀ k t, k < n → n ≤ t → t < hi →
      ¬ cmp (gv d (first + t)) (gv d (first + k)) < 0) :
    Within first (first + hi) d
        ((List.range n).reverse.foldl
          (fun d i => siftDownCmpFunc cmp (swapAt d first (first + i)) 0 i first) d) ∧
      SortedOn cmp
        ((List.range n).reverse.foldl
          (fun d i => siftDownCmpFunc cmp (swapAt d first (first + i)) 0 i first) d)
        first (first + hi) := by
  induction n generalizing d with
  | zero =>
    simp only [List.range_zero, List.reverse_nil, List.foldl_nil]
    exact ⟨Within.refl _ _ _, hsorted⟩
  | succ n ih =>
    rw [List.range_succ, List.reverse_append]
    simp only [List.reverse_cons, List.reverse_nil, List.nil_append, List.singleton_append,
      List.foldl_cons]
    have hmax := heap_root_max h d first (n + 1) hheap
    have hw1 : Within first (first + hi) d (swapAt d first (first + n)) :=
      Within.swapAt _ _ d _ _ (le_refl _) (by omega) (by omega) (by omega) hlen
    have hg : ∀ k, gv (swapAt d first (first + n)) k =
        if k = first + n then gv d first else if k = first then gv d (first + n)
        else gv d k :=
      fun k => gv_swapAt d first (first + n) k (by omega) (by omega)
    generalize swapAt d first (first + n) = d1 at hw1 hg ⊢
    have hlen1 : first + hi ≤ d1.length := by rw [hw1.1]; exact hlen
    have hs := siftDownLoop_spec h 0 n first n 0 d1 (le_refl _) (by omega) (by omega)
      (by
        intro p _ hp0 x hx1 hx2
        rw [hg, hg]
        have e1 : ¬ first + p = first + n := by omega
        have e2 : ¬ first + p = first := by omega
        have e3 : ¬ first + x = first + n := by omega
        have e4 : ¬ first + x = first := by omega
        simp only [e1, e2, e3, e4, if_false]
        exact hheap p x hx1 (by omega))
      (fun q _ hqc => by omega)
    change Within (first + 0) (first + n) d1 (siftDownCmpFunc cmp d1 0 n first) ∧
      ∀ p, 0 ≤ p → HeapAt cmp (siftDownCmpFunc cmp d1 0 n first) first n p at hs
    have hw2 : Within first (first + n) d1 (siftDownCmpFunc cmp d1 0 n first) := by
      have := hs.1
      simpa using this
    generalize siftDownCmpFunc cmp d1 0 n first = d2 at hw2 hs ⊢
    have hw2' : Within first (first + hi) d1 d2 := hw2.widen (le_refl _) (by omega)
    have htail : ∀ t, n ≤ t → gv d2 (first + t) = gv d1 (first + t) :=
      fun t ht => hw2.2.1 (first + t) (by omega)
    have := ih d2 (by omega) (by rw [hw2.1]; exact hlen1)
      (fun p => hs.2 p (Nat.zero_le _))
      (by
        intro i j hi1 hij hj
        obtain ⟨ti, rfl⟩ : ∃ ti, i = first + ti := ⟨i - first, by omega⟩
        obtain ⟨tj, rfl⟩ : ∃ tj, j = first + tj := ⟨j - first, by omega⟩
        rw [htail ti (by omega), htail tj (by omega), hg, hg]
        have e1 : ¬ first + tj = first + n := by omega
        have e2 : ¬ first + tj = first := by omega
        simp only [e1, e2, if_false]
        by_cases e3 : ti = n
        · subst e3
          simp only [if_true]
          have := hcross 0 tj (by omega) (by omega) (by omega)
          simpa using this
        · have e4 : ¬ first + ti = first + n := by omega
          have e5 : ¬ first + ti = first := by omega
          simp only [e4, e5, if_false]
          exact hsorted (first + ti) (first + tj) (by omega) (by omega) (by omega))
      (by
        intro k t hk ht1 ht2
        rw [htail t ht1]
        have hQ : ∀ j, first ≤ j → j < first + n →
            ¬ cmp (gv d1 (first + t)) (gv d1 j) < 0 := by
          intro j hj1 hj2
          rw [hg, hg]
          have e1 : ¬ j = first + n := by omega
          simp only [e1, if_false]
          by_cases e2 : t = n
          · subst e2
            simp only [if_true]
            by_cases e3 : j = first
            · simp only [e3, if_true]
              exact hmax t (by omega)
            · simp only [e3, if_false]
              obtain ⟨tj, rfl⟩ : ∃ tj, j = first + tj := ⟨j - first, by omega⟩
              exact hmax tj (by omega)
          · have e4 : ¬ first + t = first + n := by omega
            have e5 : ¬ first + t = first := by omega
            simp only [e4, e5, if_false]
            by_cases e3 : j = first
            · simp only [e3, if_true]
              exact hcross n t (by omega) (by omega) ht2
            · simp only [e3, if_false]
              obtain ⟨tj, rfl⟩ : ∃ tj, j = first + tj := ⟨j - first, by omega⟩
              exact hcross tj t (by omega) (by omega) ht2
        exact hw2.forall_range (fun x => ¬ cmp (gv d1 (first + t)) x < 0) hQ (first + k)
          (by omega) (by omega))
    exact ⟨(hw1.trans hw2').trans this.1, this.2⟩

theorem heapSortCmpFunc_spec {α : Type} [Inhabited α] {cmp : α → α → Int}
    (h : IsStrictWeakOrdering cmp) (d : List α) (a b : Nat) (hab : a ≤ b)
    (hb : b ≤ d.length) :
    Within a b d (heapSortCmpFunc cmp d a b) ∧
      SortedOn cmp (heapSortCmpFunc cmp d a b) a b := by
  simp only [heapSortCmpFunc]
  have e : a + (b - a) = b := by omega
  have h1 := buildHeap_spec h (b - a) a ((b - a - 1) / 2 + 1) d (by omega)
    (fun p hp c hc1 hc2 => by omega)
  generalize (List.range ((b - a - 1) / 2 + 1)).reverse.foldl
    (fun d i => siftDownCmpFunc cmp d i (b - a) a) d = d1 at h1 ⊢
  have h2 := extractHeap_spec h (b - a) a (b - a) d1 (le_refl _)
    (by rw [h1.1.1]; omega) h1.2 (fun i j hi hij hj => by omega)
    (fun k t hk ht1 ht2 => by omega)
  rw [e] at h1 h2
  exact ⟨h1.1.trans h2.1, h2.2⟩

/-! ## Sorting: `pdqsortCmpFunc` and `slices.SortFunc` -/

theorem LeftBound.shorten {α : Type} [Inhabited α] {cmp : α → α → Int} {d : List α}
    {a b b' : Nat} (hl : LeftBound cmp d a b) (hb : b' ≤ b) : LeftBound cmp d a b' :=
  fun ha k hk1 hk2 => hl ha k hk1 (by omega)

theorem pdqInserted_spec {α : Type} [Inhabited α] {cmp : α → α → Int}
    (h : IsStrictWeakOrdering cmp) (d : List α) (a b : Nat) (wb wp : Bool)
    (hab : a + 1 ≤ b) (hb : b ≤ d.length) (hl : LeftBound cmp d a b) :
    Within a b d (pdqInserted cmp d a b wb wp).1 ∧
      ((pdqInserted cmp d a b wb wp).2 = true →
        SortedOn cmp (pdqInserted cmp d a b wb wp).1 a b) := by
  have hw := pdqReversed_within cmp d a b (by omega) hb
  unfold pdqInserted
  split
  · have := partialInsertionSortCmpFunc_spec h (pdqReversed cmp d a b) a b hab
      (by rw [hw.1]; exact hb) (hl.within hw)
    exact ⟨hw.trans this.1, this.2⟩
  · exact ⟨hw, fun hf => by cases hf⟩

theorem pdqReady_spec {α : Type} [Inhabited α] {cmp : α → α → Int}
    (h : IsStrictWeakOrdering cmp) (next : Nat → Nat) (d : List α) (a b : Nat)
    (wb wp : Bool) (hab : a + 1 ≤ b) (hb : b ≤ d.length) (hl : LeftBound cmp d a b) :
    Within a b d (pdqReady next cmp d a b wb wp) ∧
      (pdqDone next cmp d a b wb wp = true →
        SortedOn cmp (pdqReady next cmp d a b wb wp) a b) := by
  have hw := pdqBroken_within next d a b wb (by omega) hb
  have := pdqInserted_spec h (pdqBroken next d a b wb) a b wb wp hab
    (by rw [hw.1]; exact hb) (hl.within hw)
  exact ⟨hw.trans this.1, this.2⟩

/-- A range split at `mid` into smaller elements, the pivot and not smaller elements is in
order once both sides are. -/
theorem sortedOn_of_parts {α : Type} [Inhabited α] {cmp : α → α → Int}
    (h : IsStrictWeakOrdering cmp) (d : List α) (a mid b : Nat) (p : α)
    (hp : gv d mid = p)
    (hleft : ∀ k, a ≤ k → k < mid → cmp (gv d k) p < 0)
    (hright : ∀ k, mid < k → k < b → ¬ cmp (gv d k) p < 0)
    (hs1 : SortedOn cmp d a mid) (hs2 : SortedOn cmp d (mid + 1) b) :
    SortedOn cmp d a b := by
  intro i j hi hij hj
  by_cases h1 : j < mid
  · exact hs1 i j hi hij h1
  · by_cases h2 : j = mid
    · subst h2
      rw [hp]
      exact swo_asymm h (hleft i hi hij)
    · by_cases h3 : i < mid
      · intro hlt
        exact hright j (by omega) hj (swo_trans h hlt (hleft i hi h3))
      · by_cases h4 : i = mid
        · subst h4
          rw [hp]
          exact hright j (by omega) hj
        · exact hs2 i j (by omega) hij hj

theorem pdqSplit_spec {α : Type} [Inhabited α] {cmp : α → α → Int}
    (h : IsStrictWeakOrdering cmp) (steps : Nat)
    (recur : List α → Nat → Nat → Nat → Bool → Bool → List α)
    (hrec : SortsRanges cmp steps recur)
    (q : List α × Nat × Bool) (a b limit : Nat) (p : α)
    (hb : b ≤ q.1.length) (hfuel : b - a < steps + 1)
    (ham : a ≤ q.2.1) (hmb : q.2.1 < b) (hp : gv q.1 q.2.1 = p)
    (hleft : ∀ k, a ≤ k → k < q.2.1 → cmp (gv q.1 k) p < 0)
    (hright : ∀ k, q.2.1 < k → k < b → ¬ cmp (gv q.1 k) p < 0)
    (hl : LeftBound cmp q.1 a b) :
    Within a b q.1 (pdqSplit recur q a b limit) ∧
      SortedOn cmp (pdqSplit recur q a b limit) a b := by
  obtain ⟨d0, mid, ap⟩ := q
  simp only at hb ham hmb hp hleft hright hl
  have hlr : LeftBound cmp d0 (mid + 1) b := by
    intro _ k hk1 hk2
    have e : mid + 1 - 1 = mid := by omega
    rw [e, hp]
    exact hright k (by omega) hk2
  unfold pdqSplit
  simp only
  split
  · obtain ⟨w1, s1⟩ := hrec d0 a mid limit true true ham (by omega) (by omega)
      (hl.shorten (by omega))
    generalize recur d0 a mid limit true true = d1 at w1 s1 ⊢
    have w1' : Within a b d0 d1 := w1.widen (le_refl _) (by omega)
    have hlr1 : LeftBound cmp d1 (mid + 1) b := by
      intro _ k hk1 hk2
      have e : mid + 1 - 1 = mid := by omega
      rw [e, w1.2.1 mid (by omega), w1.2.1 k (by omega), hp]
      exact hright k (by omega) hk2
    obtain ⟨w2, s2⟩ := hrec d1 (mid + 1) b limit (decide (mid - a ≥ (b - a) / 8)) ap
      (by omega) (by rw [w1.1]; exact hb) (by omega) hlr1
    generalize recur d1 (mid + 1) b limit (decide (mid - a ≥ (b - a) / 8)) ap = d2
      at w2 s2 ⊢
    refine ⟨w1'.trans (w2.widen (by omega) (le_refl _)), ?_⟩
    apply sortedOn_of_parts h d2 a mid b p
    · rw [w2.2.1 mid (by omega), w1.2.1 mid (by omega)]
      exact hp
    · intro k hk1 hk2
      rw [w2.2.1 k (by omega)]
      exact w1.forall_range (fun x => cmp x p < 0) hleft k hk1 hk2
    · have hQ : ∀ j, mid + 1 ≤ j → j < b → ¬ cmp (gv d1 j) p < 0 := by
        intro j hj1 hj2
        rw [w1.2.1 j (by omega)]
        exact hright j (by omega) hj2
      intro k hk1 hk2
      exact w2.forall_range (fun x => ¬ cmp x p < 0) hQ k (by omega) hk2
    · intro i j hi hij hj
      rw [w2.2.1 i (by omega), w2.2.1 j (by omega)]
      exact s1 i j hi hij hj
    · exact s2
  · obtain ⟨w1, s1⟩ := hrec d0 (mid + 1) b limit true true (by omega) hb (by omega) hlr
    generalize recur d0 (mid + 1) b limit true true = d1 at w1 s1 ⊢
    have w1' : Within a b d0 d1 := w1.widen (by omega) (le_refl _)
    have hl1 : LeftBound cmp d1 a mid := by
      intro ha k hk1 hk2
      rw [w1.2.1 k (by omega), w1.2.1 (a - 1) (by omega)]
      exact hl ha k hk1 (by omega)
    obtain ⟨w2, s2⟩ := hrec d1 a mid limit (decide (b - mid ≥ (b - a) / 8)) ap
      ham (by rw [w1.1]; omega) (by omega) hl1
    generalize recur d1 a mid limit (decide (b - mid ≥ (b - a) / 8)) ap = d2 at w2 s2 ⊢
    refine ⟨w1'.trans (w2.widen (le_refl _) (by omega)), ?_⟩
    apply sortedOn_of_parts h d2 a mid b p
    · rw [w2.2.1 mid (by omega), w1.2.1 mid (by omega)]
      exact hp
    · have hQ : ∀ j, a ≤ j → j < mid → cmp (gv d1 j) p < 0 := by
        intro j hj1 hj2
        rw [w1.2.1 j (by omega)]
        exact hleft j hj1 hj2
      intro k hk1 hk2
      exact w2.forall_range (fun x => cmp x p < 0) hQ k hk1 hk2
    · intro k hk1 hk2
      rw [w2.2.1 k (by omega)]
      exact w1.forall_range (fun x => ¬ cmp x p < 0)
        (fun j hj1 hj2 => hright j (by omega) hj2) k (by omega) hk2
    · exact s2
    · intro i j hi hij hj
      rw [w2.2.1 i (by omega), w2.2.1 j (by omega)]
      exact s1 i j hi hij hj

theorem pdqsortCmpFunc_spec {α : Type} [Inhabited α] {cmp : α → α → Int}
    (h : IsStrictWeakOrdering cmp) (next : Nat → Nat) (steps : Nat) :
    SortsRanges cmp steps (pdqsortCmpFunc next cmp steps) := by
  induction steps with
  | zero =>
    intro d a b limit wb wp _ _ hf _
    omega
  | succ n ih =>
    intro d a b limit wb wp hab hb hfuel hl
    rw [pdqsortCmpFunc_succ]
    split
    · exact insertionSortCmpFunc_spec h d a b hab hb
    · rename_i h12
      split
      · exact heapSortCmpFunc_spec h d a b hab hb
      · obtain ⟨wR, sR⟩ := pdqReady_spec h next d a b wb wp (by omega) hb hl
        have hP : a ≤ pdqPivotAt next cmp d a b wb ∧ pdqPivotAt next cmp d a b wb < b :=
          pdqPivot_range cmp _ a b (by omega)
        generalize pdqReady next cmp d a b wb wp = R at wR sR ⊢
        generalize pdqPivotAt next cmp d a b wb = P at hP ⊢
        have hRlen : b ≤ R.length := by rw [wR.1]; exact hb
        have hlR : LeftBound cmp R a b := hl.within wR
        split
        · rename_i hdone
          exact ⟨wR, sR hdone⟩
        · split
          · rename_i hc
            obtain ⟨ha0, hle⟩ := hc
            rw [lessAt_eq cmp R (a - 1) P (by omega) (by omega)] at hle
            have hle' : ¬ cmp (gv R (a - 1)) (gv R P) < 0 := by simpa using hle
            have hmin : ∀ k, a ≤ k → k < b → ¬ cmp (gv R k) (gv R P) < 0 :=
              fun k hk1 hk2 => swo_le_trans h hle' (hlR ha0 k hk1 hk2)
            obtain ⟨wE, hE1, hE2, hE3, hE4⟩ :=
              partitionEqualCmpFunc_spec h R a b P hP.1 hP.2 hRlen
            generalize partitionEqualCmpFunc cmp R a b P = E at wE hE1 hE2 hE3 hE4 ⊢
            have hminE : ∀ k, a ≤ k → k < b → ¬ cmp (gv E.1 k) (gv R P) < 0 :=
              wE.forall_range (fun x => ¬ cmp x (gv R P) < 0) hmin
            have hlE : LeftBound cmp E.1 E.2 b := by
              intro _ k hk1 hk2 hlt
              have h1 := hE3 (E.2 - 1) (by omega) (by omega)
              have h2 := hE4 k hk1 hk2
              exact h1 (swo_trans h h2 hlt)
            obtain ⟨w2, s2⟩ := ih E.1 E.2 b (pdqLimit limit wb) wb wp hE2
              (by rw [wE.1]; exact hRlen) (by omega) hlE
            generalize pdqsortCmpFunc next cmp n E.1 E.2 b (pdqLimit limit wb) wb wp = d2
              at w2 s2 ⊢
            refine ⟨(wR.trans wE).trans (w2.widen (by omega) (le_refl _)), ?_⟩
            intro i j hi hij hj
            by_cases h1 : E.2 ≤ i
            · exact s2 i j h1 hij hj
            · rw [w2.2.1 i (by omega)]
              have hxi := hE3 i hi (by omega)
              by_cases h2 : E.2 ≤ j
              · have hyj : cmp (gv R P) (gv d2 j) < 0 :=
                  w2.forall_range (fun x => cmp (gv R P) x < 0) hE4 j h2 hj
                intro hlt
                exact hxi (swo_trans h hyj hlt)
              · rw [w2.2.1 j (by omega)]
                have hxj := hE3 j (by omega) (by omega)
                exact (h.2.2 (gv E.1 j) (gv R P) (gv E.1 i)
                  ⟨hminE j (by omega) hj, hxj⟩ ⟨hxi, hminE i hi (by omega)⟩).1
          · obtain ⟨wQ, hQ1, hQ2, hQ3, hQ4, hQ5⟩ :=
              partitionCmpFunc_spec cmp R a b P hP.1 hP.2 hRlen
            have := pdqSplit_spec h n (pdqsortCmpFunc next cmp n) ih
              (partitionCmpFunc cmp R a b P) a b (pdqLimit limit wb) (gv R P)
              (by rw [wQ.1]; exact hRlen) hfuel hQ1 hQ2 hQ3 hQ4 hQ5 (hlR.within wQ)
            exact ⟨(wR.trans wQ).trans this.1, this.2⟩

theorem sortedOn_pairwise {α : Type} [Inhabited α] (cmp : α → α → Int) (d : List α)
    (hs : SortedOn cmp d 0 d.length) : d.Pairwise (fun x y => ¬ cmp y x < 0) := by
  rw [List.pairwise_iff_getElem]
  intro i j hi hj hij
  have := hs i j (Nat.zero_le _) hij hj
  have e1 : gv d i = d[i] := gv_eq_of_getElem? d i _ (List.getElem?_eq_getElem hi)
  have e2 : gv d j = d[j] := gv_eq_of_getElem? d j _ (List.getElem?_eq_getElem hj)
  rw [e1, e2] at this
  exact this

theorem slicesSortFunc_sorted {α : Type} [Inhabited α] {cmp : α → α → Int}
    (h : IsStrictWeakOrdering cmp) (next : Nat → Nat) (x : List α) :
    (slicesSortFunc next cmp x).Pairwise (fun a b => ¬ cmp b a < 0) := by
  have hs := pdqsortCmpFunc_spec h next (x.length + 1) x 0 x.length (bitsLen x.length)
    true true (Nat.zero_le _) (le_refl _) (by omega) (fun h0 => absurd h0 (lt_irrefl _))
  apply sortedOn_pairwise
  have hlen : (slicesSortFunc next cmp x).length = x.length := hs.1.1
  rw [hlen]
  exact hs.2

/-! ## C2: the window list offered for selection -/

/-- The Go model of `slices.SortFunc` meets the documented contract of `slices.SortFunc`: for
a strict weak ordering the result holds the same elements, in ascending order as determined
by `cmp`. -/
theorem slicesSortFunc_contract {α : Type} [Inhabited α] {cmp : α → α → Int}
    (h : IsStrictWeakOrdering cmp) (next : Nat → Nat) (x : List α) :
    (slicesSortFunc next cmp x).Perm x ∧
      (slicesSortFunc next cmp x).Pairwise (fun a b => ¬ cmp b a < 0) :=
  ⟨slicesSortFunc_perm next cmp x, slicesSortFunc_sorted h next x⟩

theorem foldl_filter_append (p : Window → Bool) (l acc : List Window) :
    l.foldl (fun copy window => if p window then copy ++ [window] else copy) acc =
      acc ++ l.filter p := by
  induction l generalizing acc with
  | nil => simp
  | cons x xs ih =>
    by_cases hx : p x = true
    · simp [List.foldl_cons, hx, ih]
    · simp [List.foldl_cons, hx, ih]

theorem getWindowsForSelect_eq (next : Nat → Nat)
    (getWindowStyle : Nat → Int) (toLower : GoString → GoString)
    (allWindows : List Window) :
    getWindowsForSelect next getWindowStyle toLower allWindows =
      slicesSortFunc next (windowCmp toLower)
        (allWindows.filter (isValidWindowForSelection getWindowStyle)) := by
  simp [getWindowsForSelect, getWindowsForSelectSlices, foldl_filter_append]

/-- C2: for every input list, `getWindowsForSelect` returns a permutation of exactly the
input windows that satisfy `isValidWindowForSelection`, in which the lower-cased display
strings of consecutive elements (indeed of any earlier and later element) are in
non-decreasing order under byte-wise comparison, and the input list is left as it was. -/
theorem getWindowsForSelect_sorted_perm (next : Nat → Nat)
    (getWindowStyle : Nat → Int) (toLower : GoString → GoString)
    (allWindows : List Window) :
    (getWindowsForSelect next getWindowStyle toLower allWindows).Perm
        (allWindows.filter (isValidWindowForSelection getWindowStyle)) ∧
      List.Chain'
        (fun a b => stringsCompare (toLower a.String) (toLower b.String) ≤ 0)
        (getWindowsForSelect next getWindowStyle toLower allWindows) ∧
      List.Pairwise
        (fun a b => stringsCompare (toLower a.String) (toLower b.String) ≤ 0)
        (getWindowsForSelect next getWindowStyle toLower allWindows) ∧
      (getWindowsForSelectSlices next getWindowStyle toLower allWindows).allWindows =
        allWindows := by
  have h := slicesSortFunc_contract (windowCmp_strictWeak toLower) next
    (allWindows.filter (isValidWindowForSelection getWindowStyle))
  rw [getWindowsForSelect_eq]
  have hp : List.Pairwise
      (fun a b => stringsCompare (toLower a.String) (toLower b.String) ≤ 0)
      (slicesSortFunc next (windowCmp toLower)
        (allWindows.filter (isValidWindowForSelection getWindowStyle))) := by
    refine h.2.imp ?_
    intro a b hab
    have := stringsCompare_neg (toLower a.String) (toLower b.String)
    simp only [windowCmp] at hab
    omega
  exact ⟨h.1, hp.chain', hp, rfl⟩

/-! ## C7, C8: the window-update callback -/

theorem slicesIndex_eq_neg_one (l : List Window) (v : Window) :
    slicesIndex l v = -1 ↔ v ∉ l := by
  unfold slicesIndex
  rw [indexFuncFrom_eq]
  by_cases h : l.any (fun x => decide (x = v)) = true
  · rw [if_pos h]
    have hm : v ∈ l := by simpa using h
    constructor
    · intro h1
      omega
    · intro h1
      exact absurd hm h1
  · rw [if_neg h]
    have hm : v ∉ l := by simpa using h
    simp [hm]

/-- C7: after the window-update callback has run on a non-empty delivered snapshot, the
selection is either empty or a window whose handle occurs in that snapshot; in particular a
selected window whose handle is absent from the snapshot is deselected. -/
theorem windowUpdate_selection_in_snapshot (next : Nat → Nat)
    (getWindowStyle : Nat → Int) (toLower : GoString → GoString) (isNew : Bool)
    (cb : DialogState → List Window → DialogState)
    (hcb : subscribeToWindowUpdates next getWindowStyle toLower isNew = some cb)
    (st : DialogState) (windows : List Window) (hne : windows ≠ []) :
    ((cb st windows).applicationSelect.Selected = none ∨
        ∃ w, (cb st windows).applicationSelect.Selected = some w ∧
          ∃ v ∈ windows, v.hwnd = w.hwnd) ∧
      (∀ w, st.applicationSelect.Selected = some w → (∀ v ∈ windows, v.hwnd ≠ w.hwnd) →
        (cb st windows).applicationSelect.Selected = none) := by
  have hcb' : cb = windowUpdateCallback next getWindowStyle toLower := by
    unfold subscribeToWindowUpdates at hcb
    split at hcb
    · cases hcb
    · exact (Option.some.inj hcb).symm
  subst hcb'
  have hlen : ¬ windows.length = 0 := by
    intro h
    exact hne (List.length_eq_zero.mp h)
  have hmem : ∀ w, w ∈ getWindowsForSelect next getWindowStyle toLower windows →
      w ∈ windows := by
    intro w hw
    rw [getWindowsForSelect_eq] at hw
    have hp := slicesSortFunc_perm next (windowCmp toLower)
      (windows.filter (isValidWindowForSelection getWindowStyle))
    exact List.mem_of_mem_filter ((hp.mem_iff).mp hw)
  have key : (windowUpdateCallback next getWindowStyle toLower st windows
        ).applicationSelect.Selected = none ∨
      ∃ w, (windowUpdateCallback next getWindowStyle toLower st windows
          ).applicationSelect.Selected = some w ∧
        st.applicationSelect.Selected = some w ∧ w ∈ windows := by
    simp only [windowUpdateCallback, hlen, if_false, Select.SetOptions, Select.ClearSelected]
    cases hsel : st.applicationSelect.Selected with
    | none => simp
    | some sel =>
      simp only
      by_cases hidx :
          slicesIndex (getWindowsForSelect next getWindowStyle toLower windows) sel = -1
      · simp [hidx]
      · simp only [hidx, if_false]
        right
        refine ⟨sel, rfl, rfl, hmem sel ?_⟩
        by_contra hnot
        exact hidx ((slicesIndex_eq_neg_one _ _).mpr hnot)
  constructor
  · rcases key with h | ⟨w, hw, _, hin⟩
    · exact Or.inl h
    · exact Or.inr ⟨w, hw, w, hin, rfl⟩
  · intro w hw habs
    rcases key with h | ⟨w', _, hw', hin⟩
    · exact h
    · rw [hw] at hw'
      cases hw'
      exact absurd rfl (habs w hin)

/-- C7 (witness): the selected window has gone from the delivered snapshot, so the selection
is cleared. -/
theorem windowUpdate_selection_in_snapshot_witness :
    (windowUpdateCallback (fun r => r) overlappedStyle asciiToLower
        ⟨[⟨7, ascii "Game", [], 0⟩], ⟨[⟨7, ascii "Game", [], 0⟩], some ⟨7, ascii "Game", [], 0⟩⟩⟩
        [⟨8, ascii "Editor", [], 0⟩]).applicationSelect.Selected = none :=
  (windowUpdate_selection_in_snapshot (fun r => r) overlappedStyle asciiToLower true _ rfl
    ⟨[⟨7, ascii "Game", [], 0⟩], ⟨[⟨7, ascii "Game", [], 0⟩], some ⟨7, ascii "Game", [], 0⟩⟩⟩
    [⟨8, ascii "Editor", [], 0⟩] (by decide)).2 ⟨7, ascii "Game", [], 0⟩ rfl (by decide)

/-- C8: the window-update callback registered by `subscribeToWindowUpdates`, invoked with an
empty window sequence, leaves the dialog state as it was: the option list and the current
selection of the application select are unchanged. -/
theorem windowUpdate_empty_unchanged (next : Nat → Nat)
    (getWindowStyle : Nat → Int) (toLower : GoString → GoString) (isNew : Bool)
    (cb : DialogState → List Window → DialogState)
    (hcb : subscribeToWindowUpdates next getWindowStyle toLower isNew = some cb)
    (st : DialogState) :
    cb st [] = st ∧
      (cb st []).applicationSelect.options = st.applicationSelect.options ∧
      (cb st []).applicationSelect.Selected = st.applicationSelect.Selected := by
  have hcb' : cb = windowUpdateCallback next getWindowStyle toLower := by
    unfold subscribeToWindowUpdates at hcb
    split at hcb
    · cases hcb
    · exact (Option.some.inj hcb).symm
  subst hcb'
  have h : windowUpdateCallback next getWindowStyle toLower st [] = st := by
    simp [windowUpdateCallback]
  rw [h]
  exact ⟨rfl, rfl, rfl⟩

/-- C8 (witness): a dialog holding a previously delivered snapshot and a selection keeps
both on an empty refresh. -/
theorem windowUpdate_empty_unchanged_witness :
    windowUpdateCallback (fun r => r) overlappedStyle asciiToLower
        ⟨[⟨7, ascii "Game", [], 0⟩], ⟨[⟨7, ascii "Game", [], 0⟩], some ⟨7, ascii "Game", [], 0⟩⟩⟩
        [] =
      ⟨[⟨7, ascii "Game", [], 0⟩], ⟨[⟨7, ascii "Game", [], 0⟩], some ⟨7, ascii "Game", [], 0⟩⟩⟩ :=
  (windowUpdate_empty_unchanged (fun r => r) overlappedStyle asciiToLower true _ rfl
    ⟨[⟨7, ascii "Game", [], 0⟩], ⟨[⟨7, ascii "Game", [], 0⟩], some ⟨7, ascii "Game", [], 0⟩⟩⟩).1

/-! ## C3: stability -/

theorem swapAt_cons_succ {α : Type} (d : α) (ds : List α) (i j : Nat) :
    swapAt (d :: ds) (i + 1) (j + 1) = d :: swapAt ds i j := by
  simp only [swapAt, List.getElem?_cons_succ]
  cases ds[i]? with
  | none => rfl
  | some x =>
    cases ds[j]? with
    | none => rfl
    | some y => simp [List.set_cons_succ]

theorem swapAt_adjacent_filter {α : Type} (p : α → Bool) (data : List α) (j : Nat) (x y : α)
    (hx : data[j + 1]? = some x) (hy : data[j]? = some y)
    (hxy : ¬ (p x = true ∧ p y = true)) :
    (swapAt data (j + 1) j).filter p = data.filter p := by
  induction data generalizing j with
  | nil => simp at hy
  | cons d ds ih =>
    cases j with
    | zero =>
      cases ds with
      | nil => simp at hx
      | cons e es =>
        simp only [List.getElem?_cons_succ, List.getElem?_cons_zero, Option.some.injEq] at hx hy
        subst hx
        subst hy
        simp only [swapAt, List.getElem?_cons_succ, List.getElem?_cons_zero, List.set_cons_succ,
          List.set_cons_zero]
        by_cases h1 : p e = true
        · have h2 : p d = false := by
            cases hd : p d
            · rfl
            · exact absurd ⟨h1, hd⟩ hxy
          simp [List.filter_cons, h1, h2]
        · simp only [Bool.not_eq_true] at h1
          simp [List.filter_cons, h1]
    | succ j' =>
      rw [swapAt_cons_succ]
      simp only [List.getElem?_cons_succ] at hx hy
      simp only [List.filter_cons, ih j' hx hy]

theorem insertionInner_filter {α : Type} (cmp : α → α → Int) (p : α → Bool)
    (hp : ∀ x y, cmp x y < 0 → ¬ (p x = true ∧ p y = true)) (a j : Nat) (data : List α) :
    (insertionInner cmp a j data).filter p = data.filter p := by
  induction j generalizing data with
  | zero => simp [insertionInner]
  | succ j ih =>
    simp only [insertionInner]
    split
    · rename_i hc
      have hless := hc.2
      simp only [lessAt] at hless
      cases hx : data[j + 1]? with
      | none => simp [hx] at hless
      | some x =>
        cases hy : data[j]? with
        | none => simp [hx, hy] at hless
        | some y =>
          simp only [hx, hy, decide_eq_true_eq] at hless
          rw [ih, swapAt_adjacent_filter p data j x y hx hy (hp x y hless)]
    · rfl

theorem insertionSortCmpFunc_filter {α : Type} (cmp : α → α → Int) (p : α → Bool)
    (hp : ∀ x y, cmp x y < 0 → ¬ (p x = true ∧ p y = true)) (a b : Nat) (data : List α) :
    (insertionSortCmpFunc cmp data a b).filter p = data.filter p := by
  unfold insertionSortCmpFunc
  generalize List.range' (a + 1) (b - (a + 1)) = idxs
  induction idxs generalizing data with
  | nil => rfl
  | cons i is ih =>
    simp only [List.foldl_cons]
    rw [ih, insertionInner_filter cmp p hp]

theorem slicesSortFunc_small {α : Type} (next : Nat → Nat) (cmp : α → α → Int) (x : List α)
    (h : x.length ≤ 12) :
    slicesSortFunc next cmp x = insertionSortCmpFunc cmp x 0 x.length := by
  simp [slicesSortFunc, pdqsortCmpFunc, h]

theorem pdqsortCmpFunc_small {α : Type} (next : Nat → Nat) (cmp : α → α → Int) (steps : Nat)
    (data : List α) (a b limit : Nat) (wb wp : Bool) (h : b - a ≤ 12) :
    pdqsortCmpFunc next cmp (steps + 1) data a b limit wb wp =
      insertionSortCmpFunc cmp data a b := by
  simp [pdqsortCmpFunc, h]

theorem pdqsortCmpFunc_first_partition {α : Type} (next : Nat → Nat) (cmp : α → α → Int)
    (steps : Nat) (data : List α) (b limit pivot : Nat) (data' : List α) (mid : Nat)
    (ap : Bool)
    (hlen : ¬ b - 0 ≤ 12) (hlimit : ¬ limit = 0)
    (hpivot : choosePivotCmpFunc cmp data 0 b = (pivot, sortedHint.increasingHint))
    (hpins : partialInsertionSortCmpFunc cmp data 0 b = (data, false))
    (hpart : partitionCmpFunc cmp data 0 b pivot = (data', mid, ap))
    (hleft : mid - 0 < b - mid) :
    pdqsortCmpFunc next cmp (steps + 1) data 0 b limit true true =
      pdqsortCmpFunc next cmp steps
        (pdqsortCmpFunc next cmp steps data' 0 mid limit true true) (mid + 1) b limit
        (decide (mid - 0 ≥ (b - 0) / 8)) ap := by
  have hne : ¬ sortedHint.increasingHint = sortedHint.decreasingHint := by decide
  rw [pdqsortCmpFunc]
  simp only [hlen, hlimit, if_false, if_true, hpivot]
  simp only [decide_eq_true_eq, decide_False, Bool.false_eq_true, if_false, true_and,
    if_true, hne, hpins, Nat.lt_irrefl, false_and, gt_iff_lt, hpart, hleft]

set_option maxRecDepth 100000 in
theorem getWindowsForSelect_thirteenWindows (next : Nat → Nat) :
    getWindowsForSelect next overlappedStyle asciiToLower thirteenWindows =
      [⟨6, [97], [], 0⟩, ⟨1, [97], [], 0⟩, ⟨2, [97], [], 0⟩, ⟨3, [97], [], 0⟩,
       ⟨4, [97], [], 0⟩, ⟨5, [97], [], 0⟩, ⟨7, [97], [], 0⟩,
       ⟨8, [97], [], 0⟩, ⟨9, [97], [], 0⟩, ⟨10, [97], [], 0⟩, ⟨11, [97], [], 0⟩,
       ⟨12, [97], [], 0⟩, ⟨0, [98], [], 0⟩] := by
  rw [getWindowsForSelect_eq]
  have hf : thirteenWindows.filter (isValidWindowForSelection overlappedStyle) =
      thirteenWindows := by decide
  rw [hf]
  have hn : thirteenWindows.length = 13 := by decide
  have hb : bitsLen 13 = 4 := by decide
  simp only [slicesSortFunc, hn, hb]
  rw [pdqsortCmpFunc_first_partition next (windowCmp asciiToLower) 13 thirteenWindows 13 4 6
    ((partitionCmpFunc (windowCmp asciiToLower) thirteenWindows 0 13 6).1) 0 true
    (by decide) (by decide) (by decide) (by decide) (by decide) (by decide)]
  rw [pdqsortCmpFunc_small next _ 12 _ 0 0 4 true true (by decide)]
  rw [pdqsortCmpFunc_small next _ 12 _ 1 13 4 _ true (by decide)]
  decide

/-- C3 (as stated, refuted): in `thirteenWindows`, all eligible, the window with handle 1
precedes the window with handle 6 and both have the lower-cased display string "a", yet in
the result of `getWindowsForSelect` the window with handle 6 comes first, whatever the
generator: `slices.SortFunc` moves the chosen pivot (position 6) to the front of the range
before partitioning. -/
theorem getWindowsForSelect_unstable_counterexample :
    isValidWindowForSelection overlappedStyle ⟨1, ascii "a", [], 0⟩ = true ∧
      isValidWindowForSelection overlappedStyle ⟨6, ascii "a", [], 0⟩ = true ∧
      asciiToLower (Window.String ⟨1, ascii "a", [], 0⟩) =
        asciiToLower (Window.String ⟨6, ascii "a", [], 0⟩) ∧
      Precedes ⟨1, ascii "a", [], 0⟩ ⟨6, ascii "a", [], 0⟩ thirteenWindows ∧
      ∀ next : Nat → Nat,
        (getWindowsForSelect next overlappedStyle asciiToLower
            thirteenWindows).map (fun w => w.hwnd) =
          [6, 1, 2, 3, 4, 5, 7, 8, 9, 10, 11, 12, 0] ∧
        ¬ Precedes ⟨1, ascii "a", [], 0⟩ ⟨6, ascii "a", [], 0⟩
          (getWindowsForSelect next overlappedStyle asciiToLower
            thirteenWindows) := by
  refine ⟨by decide, by decide, by decide, by decide, ?_⟩
  intro next
  rw [getWindowsForSelect_thirteenWindows next]
  decide

/-- C3 (amended): when at most twelve windows of the input are eligible, the ordering
produced by `getWindowsForSelect` is stable: two eligible windows `a`, `b` whose display
strings are equal after lower-casing and of which `a` precedes `b` in the input keep that
order in the output. (`slices.SortFunc` sorts at most twelve elements by insertion; longer
lists are partitioned around a pivot, which does not keep ties in order.) -/
theorem getWindowsForSelect_stable_small (next : Nat → Nat) (getWindowStyle : Nat → Int)
    (toLower : GoString → GoString) (windows : List Window)
    (hsmall : (windows.filter (isValidWindowForSelection getWindowStyle)).length ≤ 12)
    (a b : Window)
    (ha : isValidWindowForSelection getWindowStyle a = true)
    (hb : isValidWindowForSelection getWindowStyle b = true)
    (hkey : toLower a.String = toLower b.String)
    (hprec : Precedes a b windows) :
    Precedes a b
      (getWindowsForSelect next getWindowStyle toLower windows) := by
  unfold Precedes at *
  rw [getWindowsForSelect_eq, slicesSortFunc_small next _ _ hsmall]
  let p : Window → Bool := fun w => decide (toLower w.String = toLower a.String)
  have hp : ∀ x y, windowCmp toLower x y < 0 → ¬ (p x = true ∧ p y = true) := by
    intro x y hlt hxy
    simp only [p, decide_eq_true_eq] at hxy
    simp only [windowCmp, hxy.1, hxy.2, stringsCompare_self] at hlt
    omega
  have hf := insertionSortCmpFunc_filter (windowCmp toLower) p hp 0
    (windows.filter (isValidWindowForSelection getWindowStyle)).length
    (windows.filter (isValidWindowForSelection getWindowStyle))
  have h1 : [a, b].Sublist (windows.filter (isValidWindowForSelection getWindowStyle)) := by
    have := hprec.filter (isValidWindowForSelection getWindowStyle)
    simpa [List.filter_cons, ha, hb] using this
  have h2 : [a, b].Sublist
      ((windows.filter (isValidWindowForSelection getWindowStyle)).filter p) := by
    have := h1.filter p
    simpa [List.filter_cons, p, hkey] using this
  rw [← hf] at h2
  exact h2.trans (List.filter_sublist _)

set_option maxRecDepth 100000 in
/-- C3 (witness): eligible windows titled "Beta", "alpha", "Alpha" come out in the order
"alpha", "Alpha", "Beta". -/
theorem getWindowsForSelect_stable_small_witness :
    Precedes ⟨2, ascii "alpha", [], 0⟩ ⟨3, ascii "Alpha", [], 0⟩
        (getWindowsForSelect (fun r => r) overlappedStyle asciiToLower
          [⟨1, ascii "Beta", [], 0⟩, ⟨2, ascii "alpha", [], 0⟩, ⟨3, ascii "Alpha", [], 0⟩]) ∧
      (getWindowsForSelect (fun r => r) overlappedStyle asciiToLower
          [⟨1, ascii "Beta", [], 0⟩, ⟨2, ascii "alpha", [], 0⟩,
           ⟨3, ascii "Alpha", [], 0⟩]).map (fun w => w.title) =
        [ascii "alpha", ascii "Alpha", ascii "Beta"] :=
  ⟨getWindowsForSelect_stable_small (fun r => r) overlappedStyle asciiToLower
      [⟨1, ascii "Beta", [], 0⟩, ⟨2, ascii "alpha", [], 0⟩, ⟨3, ascii "Alpha", [], 0⟩]
      (by decide) ⟨2, ascii "alpha", [], 0⟩ ⟨3, ascii "Alpha", [], 0⟩
      (by decide) (by decide) (by decide) (by decide),
    by decide⟩


end GoBorderless
